import Mathlib

/-!
# Verification of mockturtle's simulation-based CEC
  (src/include/mockturtle/algorithms/simulation_cec.hpp)

This file gives a shallow embedding of the simulation-based combinational
equivalence checker: the split-variable planner, the pattern initializer,
the pattern rotator, the per-round equivalence check, the round-loop driver
and the `simulation_cec` entry point, together with theorems settling the
spec claims about them.

Machine integers: the source works on `uint32_t`.  We embed them as `Nat`
with explicit reduction modulo `2 ^ 32` where overflow can occur.  The C++
left shift `1 << e` is embedded with shift-out semantics (`2 ^ e` reduced
modulo `2 ^ 32`, hence `0` for `e ≥ 32`); the source reaches exponents
`≥ 32` only through the planner overshoot documented in the spec.

External collaborators that are declared but whose code is not part of the
repository snapshot (`kitty` truth tables, `unordered_node_map`,
`simulate_nodes` from simulation.hpp and `miter` from miter.hpp) are
modelled from the spec; each such definition carries a doc comment saying
so.
-/

/-- The modulus `2 ^ 32` of the source's `uint32_t` arithmetic. -/
def U32 : Nat := 2 ^ 32

/-- The C++ `uint32_t` shift `1 << e`: `2 ^ e` reduced modulo `2 ^ 32`
(shift-out semantics, so `0` when `e ≥ 32`). -/
def shl32 (e : Nat) : Nat := if e < 32 then 2 ^ e else 0

/-- The C++ `uint32_t` subtraction `a - b` (wrap-around). -/
def sub32 (a b : Nat) : Nat := (a % U32 + (U32 - b % U32)) % U32

/-- Modelled from the spec: `kitty::dynamic_truth_table`, a fixed-width
bit vector holding `2 ^ numVars` bits (bit `k` is the function value on the
input combination encoded by `k`). -/
structure TT where
  numVars : Nat
  bits : List Bool
deriving DecidableEq

/-- Modelled from the spec: the all-zero table, as built by the
`dynamic_truth_table` constructor used in `init_patterns`. -/
def ttZero (w : Nat) : TT := ⟨w, List.replicate (2 ^ w) false⟩

/-- Modelled from the spec: `kitty::create_nth_var`, the single-variable
projection function for variable `i` (bit `k` of the table is bit `i` of `k`). -/
def create_nth_var (w i : Nat) : TT :=
  ⟨w, (List.range (2 ^ w)).map (fun k => k.testBit i)⟩

/-- Modelled from the spec: bitwise complement `~` on truth tables. -/
def ttNot (t : TT) : TT := ⟨t.numVars, t.bits.map not⟩

/-- Modelled from the spec: `kitty::is_const0`, the constant-zero test. -/
def is_const0 (t : TT) : Bool := t.bits.all (fun b => !b)

/-- Bit `k` of a truth table (out-of-range reads give `false`). -/
def ttGetBit (t : TT) (k : Nat) : Bool := t.bits.getD k false

/-- A constant table (all bits `b`) of width `w`. -/
def ttConst (w : Nat) (b : Bool) : TT := ⟨w, List.replicate (2 ^ w) b⟩

/-- Modelled from the spec: an internal gate of a logic network.  A gate
reads a list of fanins, each a node index paired with a complement flag,
and combines the (possibly complemented) fanin values with its boolean
operation. -/
structure Gate where
  fanins : List (Nat × Bool)
  op : List Bool → Bool

/-- A gate with no fanins computing constant `false` (used as a `getD`
default and in concrete examples). -/
def dummyGate : Gate := ⟨[], fun _ => false⟩

/-- Modelled from the spec: a combinational logic network.  Primary input
at positional index `i` is node `i` (`i < numPis`); the `j`-th internal
gate is node `numPis + j`; each primary output is a signal: a driving node
index paired with a complement (inversion) flag. -/
structure Network where
  numPis : Nat
  gates : List Gate
  pos : List (Nat × Bool)

/-- The total node count, `Ntk::size()`. -/
def Network.size (N : Network) : Nat := N.numPis + N.gates.length

/-- Well-formedness of a network (the DAG property of the spec's data
model): every fanin of the `j`-th gate is a strictly earlier node, and
every primary output is driven by an existing node. -/
def Network.wf (N : Network) : Prop :=
  (∀ j, j < N.gates.length →
    ∀ ic ∈ (N.gates.getD j dummyGate).fanins, ic.1 < N.numPis + j) ∧
  (∀ f ∈ N.pos, f.1 < N.size)

instance (N : Network) : Decidable N.wf := by
  unfold Network.wf
  infer_instance

/-- The value of a gate given the list of values of all earlier nodes. -/
def gateEval (g : Gate) (acc : List Bool) : Bool :=
  g.op (g.fanins.map (fun ic => Bool.xor (acc.getD ic.1 false) ic.2))

/-- Evaluate a list of gates, appending each gate's value to the
accumulated list of node values. -/
def evalGates : List Gate → List Bool → List Bool
  | [], acc => acc
  | g :: gs, acc => evalGates gs (acc ++ [gateEval g acc])

/-- The list of all node values of a network under the input assignment `σ`. -/
def Network.nodeVals (N : Network) (σ : Nat → Bool) : List Bool :=
  evalGates N.gates ((List.range N.numPis).map σ)

/-- The value of node `i` under input assignment `σ` (out-of-range nodes
read `false`). -/
def Network.evalNode (N : Network) (σ : Nat → Bool) (i : Nat) : Bool :=
  (N.nodeVals σ).getD i false

/-- The value of a signal (driving node value, complemented when the
signal's inversion flag is set). -/
def evalSignal (N : Network) (σ : Nat → Bool) (f : Nat × Bool) : Bool :=
  Bool.xor (N.evalNode σ f.1) f.2

/-- The list of primary-output values of a network under `σ`. -/
def Network.poVals (N : Network) (σ : Nat → Bool) : List Bool :=
  N.pos.map (evalSignal N σ)

/-- Functional equivalence of two networks: identical primary-output
values under every input assignment. -/
def cecEquiv (N1 N2 : Network) : Prop :=
  ∀ σ : Nat → Bool, N1.poVals σ = N2.poVals σ

/-- Modelled from the spec: the `PatternStore`
(`unordered_node_map<kitty::dynamic_truth_table, Ntk>`), a mapping from
node identity to truth table. -/
def PS : Type := Nat → Option TT

/-- The empty pattern store. -/
def PS.empty : PS := fun _ => none

/-- Insert / overwrite the entry of node `k`. -/
def PS.insert (p : PS) (k : Nat) (t : TT) : PS :=
  fun m => if m = k then some t else p m

/-- Erase the entry of node `k`. -/
def PS.erase (p : PS) (k : Nat) : PS :=
  fun m => if m = k then none else p m

/-- Look up the table of node `m`; a missing entry reads as the
default-constructed (all-zero) table of width `w`. -/
def psGet (p : PS) (m : Nat) (w : Nat) : TT := (p m).getD (ttZero w)

/-- The reported statistics, `simulation_cec_stats` (source lines 47-54),
default-initialized to `split_var = 0`, `rounds = 0`. -/
structure simulation_cec_stats where
  split_var : Nat
  rounds : Nat
deriving DecidableEq

/-- The inner `while (m <= n && cond <= max) m++;` loop of
`compute_splitting_var` (source lines 131-132). -/
def split_loop (n cond mx m : Nat) : Nat :=
  if h : m ≤ n ∧ cond ≤ mx then split_loop n cond mx (m + 1) else m
termination_by n + 1 - m
decreasing_by omega

/-- The planner `simulation_cec_impl::compute_splitting_var` (source lines 122-136).
`v` is `_ntk.size()`, `n` is the primary-input count; `cond` is computed
once at `m = 7` and never recomputed inside the loop, exactly as in the
source. -/
def compute_splitting_var (v n : Nat) : Nat :=
  if n ≤ 6 then n
  else
    let m := 7
    let cond := ((32 + 2 ^ (m - 3)) * v) % U32
    let mx := 2 ^ 29
    split_loop n cond mx m

/-- The round count `simulation_cec_impl::compute_rounds` (source lines 138-140):
`1 << (n - split_var)` in `uint32_t` arithmetic. -/
def compute_rounds (n split_var : Nat) : Nat := shl32 (sub32 n split_var)

/-- The initializer `simulation_cec_impl::init_patterns` (source lines 142-153): every
primary input at positional index `p` gets the projection function of
variable `p` when `p < split_var` and the all-zero table otherwise. -/
def init_patterns (N : Network) (split_var : Nat) : PS :=
  (List.range N.numPis).foldl
    (fun patterns p =>
      PS.insert patterns p
        (if p < split_var then create_nth_var split_var p else ttZero split_var))
    PS.empty

/-- The truth table computed for a gate from the pattern store: the gate's
operation applied bitwise to the (possibly complemented) fanin tables. -/
def gateTT (p : PS) (w : Nat) (g : Gate) : TT :=
  ⟨w, (List.range (2 ^ w)).map
    (fun k => g.op (g.fanins.map
      (fun ic => Bool.xor (ttGetBit (psGet p ic.1 w) k) ic.2)))⟩

/-- Worker of the modelled simulator: walk the gate list in dependency
order; a gate whose node already has an entry is skipped, otherwise its
table is computed from the store and inserted. -/
def simGates (n w : Nat) : List Gate → Nat → PS → PS
  | [], _, p => p
  | g :: gs, j, p =>
    match p (n + j) with
    | some _ => simGates n w gs (j + 1) p
    | none => simGates n w gs (j + 1) (PS.insert p (n + j) (gateTT p w g))

/-- Modelled from the spec: `simulate_nodes` (simulation.hpp, not part of
the snapshot).  Given a store populated for all primary inputs, it
populates an entry for every gate by combinational propagation consistent
with each gate's function and each fanin's inversion flag, in dependency
order, computing only the nodes that do not already have an entry. -/
def simulate_nodes (N : Network) (w : Nat) (p : PS) : PS :=
  simGates N.numPis w N.gates 0 p

/-- The equivalence check `simulation_cec_impl::check` (source lines 155-172): the store agrees
iff every primary output's table — complemented first when the signal is
inverted — is identically constant zero. -/
def check (N : Network) (patterns : PS) (w : Nat) : Bool :=
  N.pos.all (fun f =>
    if f.2 then is_const0 (ttNot (psGet patterns f.1 w))
    else is_const0 (psGet patterns f.1 w))

/-- The erase loop of `update_pattern` (source lines 177-180):
`foreach_gate` erasing every gate entry. -/
def eraseGates (N : Network) (p : PS) : PS :=
  (List.range N.gates.length).foldl (fun q j => PS.erase q (N.numPis + j)) p

/-- The primary-input loop of `update_pattern` (source lines 182-201):
walk the primary inputs in index order; for each input with index
`≥ split_var`, flip its constant table when its zero/non-zero state
disagrees with the current low bit of `r`, then halve `r`. -/
def rotGo (split_var : Nat) : List Nat → Nat → PS → PS
  | [], _, p => p
  | i :: rest, r, p =>
    if split_var ≤ i then
      let t := psGet p i 0
      let p2 :=
        if r % 2 = 1 then (if is_const0 t then PS.insert p i (ttNot t) else p)
        else (if is_const0 t then p else PS.insert p i (ttNot t))
      rotGo split_var rest (r / 2) p2
    else rotGo split_var rest r p

/-- The rotator `simulation_cec_impl::update_pattern` (source lines 175-202): erase
all gate entries, then advance the overflow inputs by the binary expansion
of `round`. -/
def update_pattern (N : Network) (round : Nat) (patterns : PS) (split_var : Nat) : PS :=
  rotGo split_var (List.range N.numPis) round (eraseGates N patterns)

/-- The simulation round loop of `simulation_cec_impl::run` (source lines
107-115). -/
def runLoop (N : Network) (split_var : Nat) (p : PS) (round rounds : Nat) : Bool :=
  if h : round < rounds then
    let p2 := simulate_nodes N split_var (update_pattern N round p split_var)
    if check N p2 split_var = false then false
    else runLoop N split_var p2 (round + 1) rounds
  else true
termination_by rounds - round
decreasing_by omega

/-- The driver `simulation_cec_impl::run` (source lines 81-118), returning the boolean
result together with the reported statistics. -/
def run (N : Network) : Bool × simulation_cec_stats :=
  let n := N.numPis
  let split_var := compute_splitting_var N.size n
  let rounds := compute_rounds n split_var
  let patterns := simulate_nodes N split_var (init_patterns N split_var)
  if check N patterns split_var = false then (false, ⟨split_var, rounds⟩)
  else (runLoop N split_var patterns 1 rounds, ⟨split_var, rounds⟩)

/-- Node renaming used when the second network is placed after the first
network's gates: primary inputs are shared, gates are shifted by the first
network's gate count. -/
def shiftNode (n g1 i : Nat) : Nat := if i < n then i else i + g1

/-- Rename all fanins of a gate by `shiftNode`. -/
def shiftGate (n g1 : Nat) (g : Gate) : Gate :=
  ⟨g.fanins.map (fun ic => (shiftNode n g1 ic.1, ic.2)), g.op⟩

/-- Binary XOR on the first two entries of the value list (the operation
of a miter output gate). -/
def xorOp : List Bool → Bool :=
  fun l => Bool.xor (l.getD 0 false) (l.getD 1 false)

/-- Modelled from the spec: the body of the miter network (miter.hpp, not
part of the snapshot): it shares the primary inputs, contains both
networks' gates, and for each output pair contains one gate computing the
XOR of the two (possibly complemented) output signals; its primary outputs
are exactly these XOR gates, uncomplemented. -/
def miterNetwork (N1 N2 : Network) : Network :=
  let n := N1.numPis
  let g1 := N1.gates.length
  let g2 := N2.gates.length
  { numPis := n,
    gates := N1.gates ++ N2.gates.map (shiftGate n g1) ++
      List.zipWith
        (fun f1 f2 => Gate.mk [(f1.1, f1.2), (shiftNode n g1 f2.1, f2.2)] xorOp)
        N1.pos N2.pos,
    pos := (List.range N1.pos.length).map (fun t => (n + g1 + g2 + t, false)) }

/-- Modelled from the spec: `miter` (miter.hpp, not part of the snapshot)
returns the miter network when the two networks have equal primary-input
and primary-output counts, and nothing otherwise. -/
def miter (N1 N2 : Network) : Option Network :=
  if N1.numPis = N2.numPis ∧ N1.pos.length = N2.pos.length
  then some (miterNetwork N1 N2) else none

/-- The entry point `simulation_cec` (source lines 222-253): decline when the first
network has more than 40 primary inputs; otherwise build the miter and run
the checker on it, reporting its statistics; when the miter cannot be
built, the initial `result = false` and default statistics are reported. -/
def simulation_cec (ntk1 ntk2 : Network) : Option Bool × simulation_cec_stats :=
  if 40 < ntk1.numPis then (none, ⟨0, 0⟩)
  else
    match miter ntk1 ntk2 with
    | some m => (some (run m).1, (run m).2)
    | none => (some false, ⟨0, 0⟩)

/-! ### Proof-side auxiliary definitions -/

/-- The single-step effect of the rotator on the table of one overflow
input, given the extracted round bit `b`. -/
def rotStep (b : Bool) (t : TT) : TT :=
  if b then (if is_const0 t then ttNot t else t)
  else (if is_const0 t then t else ttNot t)

/-- The table that a node carries after simulation, expressed
semantically: bit `k` is the node's value under the `k`-th assignment of
the family `A`. -/
def tableOf (N : Network) (A : Nat → Nat → Bool) (w m : Nat) : TT :=
  ⟨w, (List.range (2 ^ w)).map (fun k => N.evalNode (A k) m)⟩

/-- The input assignment explored at table position `k` of round `r`:
free inputs (`i < s`) take bit `i` of `k`, overflow inputs take bit
`i - s` of the round counter `r`. -/
def roundAssign (s k r i : Nat) : Bool :=
  if i < s then k.testBit i else r.testBit (i - s)

/-- The table held by primary input `i` during round `r`: the projection
function for free inputs, the constant table of the input's round bit for
overflow inputs. -/
def roundPatt (s r i : Nat) : TT :=
  if i < s then create_nth_var s i else ttConst s (r.testBit (i - s))

/-- The pattern store at the start of round `r` of a run (after
initialization for `r = 0`, after the `r`-th rotation otherwise). -/
def storeAtRound (N : Network) (s : Nat) : Nat → PS
  | 0 => init_patterns N s
  | r + 1 => update_pattern N (r + 1) (simulate_nodes N s (storeAtRound N s r)) s

/-- The split variable computed by a run on network `N`. -/
def splitOf (N : Network) : Nat := compute_splitting_var N.size N.numPis

/-- The round count computed by a run on network `N`. -/
def roundsOf (N : Network) : Nat := compute_rounds N.numPis (splitOf N)

/-- Round `r` agrees: every primary output evaluates to `false` under
every assignment explored in round `r`. -/
def roundOK (N : Network) (s r : Nat) : Prop :=
  ∀ f ∈ N.pos, ∀ k, k < 2 ^ s → evalSignal N (roundAssign s k r) f = false

/-- The outcome of the equivalence check of round `r` in a run on `N`. -/
def checkOK (N : Network) (r : Nat) : Bool :=
  check N (simulate_nodes N (splitOf N) (storeAtRound N (splitOf N) r)) (splitOf N)

/-- Round `r` is the first failing round of the run. -/
def failFirst (N : Network) (r : Nat) : Prop :=
  checkOK N r = false ∧ ∀ q, q < r → checkOK N q = true

/-- The number whose binary expansion (least significant bit first) is
`f 0, …, f (m-1)`. -/
def bitsToNat (f : Nat → Bool) : Nat → Nat
  | 0 => 0
  | m + 1 => 2 * bitsToNat (fun j => f (j + 1)) m + (f 0).toNat

/-! ### Instrumented driver (for the temporal claim)

The instrumented driver mirrors `run` literally and additionally records
the sequence of rotation, simulation and check events it executes. -/

/-- An observable event of the driver: a rotation, a simulation pass or an
equivalence check, tagged with its round index. -/
inductive Event where
  | rot : Nat → Event
  | sim : Nat → Event
  | chk : Nat → Event
deriving DecidableEq

/-- The round loop of `run`, instrumented with its event trace. -/
def runLoopTrace (N : Network) (split_var : Nat) (p : PS) (round rounds : Nat) :
    List Event × Bool :=
  if h : round < rounds then
    let p2 := simulate_nodes N split_var (update_pattern N round p split_var)
    if check N p2 split_var = false then
      ([Event.rot round, Event.sim round, Event.chk round], false)
    else
      let rest := runLoopTrace N split_var p2 (round + 1) rounds
      (Event.rot round :: Event.sim round :: Event.chk round :: rest.1, rest.2)
  else ([], true)
termination_by rounds - round
decreasing_by omega

/-- The driver `run`, instrumented with its event trace. -/
def runTrace (N : Network) : List Event × Bool :=
  let split_var := splitOf N
  let rounds := roundsOf N
  let patterns := simulate_nodes N split_var (init_patterns N split_var)
  if check N patterns split_var = false then ([Event.sim 0, Event.chk 0], false)
  else
    let rest := runLoopTrace N split_var patterns 1 rounds
    (Event.sim 0 :: Event.chk 0 :: rest.1, rest.2)

/-- The trace of a run that executes rounds `0 .. r` completely and stops
after the check of round `r`. -/
def expectedTrace (r : Nat) : List Event :=
  Event.sim 0 :: Event.chk 0 ::
    ((List.range' 1 r).map (fun i => [Event.rot i, Event.sim i, Event.chk i])).flatten

/-! ### Concrete networks used in witnesses and counterexamples -/

/-- A one-input identity network: one primary input driving one output. -/
def netId : Network := ⟨1, [], [(0, false)]⟩

/-- A network with one primary input and no outputs. -/
def netP1 : Network := ⟨1, [], []⟩

/-- A network with two primary inputs and no outputs. -/
def netP2 : Network := ⟨2, [], []⟩

/-- A network with three primary inputs and no outputs. -/
def netP3 : Network := ⟨3, [], []⟩

/-- A network with 41 primary inputs and no outputs. -/
def netP41 : Network := ⟨41, [], []⟩

/-- A 39-input network with `2 ^ 24` dummy gates whose single output is
primary input 7 (used to drive the planner into its overflowing branch). -/
def bigN1 : Network := ⟨39, List.replicate 16777216 dummyGate, [(7, false)]⟩

/-- A 39-input network whose single output is primary input 8. -/
def bigN2 : Network := ⟨39, [], [(8, false)]⟩

/-! ### Basic list and truth-table lemmas -/

theorem getD_range_map (f : Nat → Bool) (m k : Nat) (d : Bool) :
    (((List.range m).map f).getD k d) = if k < m then f k else d := by
  rw [List.getD_eq_getElem?_getD, List.getElem?_map]
  by_cases h : k < m
  · simp [List.getElem?_range h, h]
  · rw [List.getElem?_eq_none (by simpa using Nat.le_of_not_lt h)]
    simp [h]

theorem getD_replicate' (a : Bool) (m k : Nat) (d : Bool) :
    (List.replicate m a).getD k d = if k < m then a else d := by
  rw [List.getD_eq_getElem?_getD, List.getElem?_replicate]
  by_cases h : k < m <;> simp [h]

theorem map_range_const (c : Bool) (m : Nat) :
    (List.range m).map (fun _ => c) = List.replicate m c := by
  induction m with
  | zero => rfl
  | succ m ih =>
    rw [List.range_succ, List.map_append, ih, List.replicate_succ' m c]
    rfl

theorem is_const0_iff (t : TT) :
    is_const0 t = true ↔ ∀ k, k < t.bits.length → ttGetBit t k = false := by
  unfold is_const0 ttGetBit
  rw [List.all_eq_true]
  constructor
  · intro h k hk
    rw [List.getD_eq_getElem t.bits false hk]
    have := h (t.bits[k]) (List.getElem_mem hk)
    simpa using this
  · intro h b hb
    obtain ⟨k, hk, hbk⟩ := List.mem_iff_getElem.1 hb
    have := h k hk
    rw [List.getD_eq_getElem t.bits false hk] at this
    simp [← hbk, this]

theorem ttZero_eq_ttConst (w : Nat) : ttZero w = ttConst w false := rfl

theorem is_const0_ttConst (w : Nat) (b : Bool) : is_const0 (ttConst w b) = !b := by
  cases b <;>
    simp [is_const0, ttConst, List.all_eq_true, List.mem_replicate,
      Nat.pos_iff_ne_zero.1 (Nat.two_pow_pos w)]

theorem ttNot_ttConst (w : Nat) (b : Bool) : ttNot (ttConst w b) = ttConst w (!b) := by
  simp [ttNot, ttConst, List.map_replicate]

theorem rotStep_ttConst (b c : Bool) (w : Nat) : rotStep b (ttConst w c) = ttConst w b := by
  cases b <;> cases c <;> simp [rotStep, is_const0_ttConst, ttNot_ttConst]

theorem ttGetBit_create_nth_var (w i k : Nat) (hk : k < 2 ^ w) :
    ttGetBit (create_nth_var w i) k = k.testBit i := by
  simp [ttGetBit, create_nth_var, getD_range_map, hk]

theorem ttGetBit_ttConst (w : Nat) (b : Bool) (k : Nat) (hk : k < 2 ^ w) :
    ttGetBit (ttConst w b) k = b := by
  simp [ttGetBit, ttConst, getD_replicate', hk]

theorem ttGetBit_ttZero (w k : Nat) : ttGetBit (ttZero w) k = false := by
  by_cases hk : k < 2 ^ w <;> simp [ttGetBit, ttZero, getD_replicate', hk]

theorem ttConst_inj (w : Nat) (b c : Bool) (h : ttConst w b = ttConst w c) : b = c := by
  have hb := ttGetBit_ttConst w b 0 (Nat.two_pow_pos w)
  have hc := ttGetBit_ttConst w c 0 (Nat.two_pow_pos w)
  rw [h, hc] at hb
  exact hb.symm

/-! ### Planner lemmas -/

theorem split_loop_stop (n cond mx m : Nat) (h : ¬ cond ≤ mx) :
    split_loop n cond mx m = m := by
  rw [split_loop]
  simp [h]

theorem split_loop_all (n cond mx : Nat) (h : cond ≤ mx) :
    ∀ k m, m ≤ n + 1 → n + 1 - m = k → split_loop n cond mx m = n + 1 := by
  intro k
  induction k with
  | zero =>
    intro m hm hk
    have : m = n + 1 := by omega
    subst this
    rw [split_loop]
    simp
  | succ k ih =>
    intro m hm hk
    rw [split_loop]
    have hmn : m ≤ n := by omega
    simp only [hmn, h, and_self, dite_true]
    exact ih (m + 1) (by omega) (by omega)

theorem compute_splitting_var_le6 (v n : Nat) (h : n ≤ 6) :
    compute_splitting_var v n = n := by
  unfold compute_splitting_var
  simp [h]

theorem compute_splitting_var_overshoot (v n : Nat) (h : 6 < n)
    (hc : (48 * v) % U32 ≤ 2 ^ 29) : compute_splitting_var v n = n + 1 := by
  unfold compute_splitting_var
  have h6 : ¬ n ≤ 6 := by omega
  simp only [h6, if_false]
  norm_num
  exact split_loop_all n ((48 * v) % U32) (2 ^ 29) hc (n + 1 - 7) 7 (by omega) rfl

theorem compute_splitting_var_budget (v n : Nat) (h : 6 < n)
    (hc : ¬ (48 * v) % U32 ≤ 2 ^ 29) : compute_splitting_var v n = 7 := by
  unfold compute_splitting_var
  have h6 : ¬ n ≤ 6 := by omega
  simp only [h6, if_false]
  norm_num
  exact split_loop_stop n ((48 * v) % U32) (2 ^ 29) 7 hc

theorem compute_rounds_self (n : Nat) : compute_rounds n n = 1 := by
  unfold compute_rounds sub32 shl32
  have h1 : n % U32 < U32 := Nat.mod_lt n (by unfold U32; norm_num)
  have h2 : n % U32 + (U32 - n % U32) = U32 := by omega
  rw [h2, Nat.mod_self]
  norm_num

theorem compute_rounds_sub (n s : Nat) (hs : s ≤ n) (hn : n < U32) :
    compute_rounds n s = shl32 (n - s) := by
  unfold compute_rounds sub32
  have h1 : n % U32 = n := Nat.mod_eq_of_lt hn
  have h2 : s % U32 = s := Nat.mod_eq_of_lt (by omega)
  rw [h1, h2]
  have h3 : n + (U32 - s) = (n - s) + U32 := by omega
  rw [h3, Nat.add_mod_right, Nat.mod_eq_of_lt (by omega)]

theorem compute_rounds_overshoot (n : Nat) (hn : n + 1 < U32) :
    compute_rounds n (n + 1) = 0 := by
  unfold compute_rounds sub32 shl32
  have h1 : n % U32 = n := Nat.mod_eq_of_lt (by omega)
  have h2 : (n + 1) % U32 = n + 1 := Nat.mod_eq_of_lt hn
  rw [h1, h2]
  have h3 : n + (U32 - (n + 1)) = U32 - 1 := by omega
  rw [h3, Nat.mod_eq_of_lt (by omega)]
  have : ¬ U32 - 1 < 32 := by unfold U32; norm_num
  simp [this]

theorem shl32_eq_pow (e : Nat) (he : e < 32) : shl32 e = 2 ^ e := by
  simp [shl32, he]

/-! ### Pattern-store characterizations -/

theorem foldl_insert_sp (f : Nat → TT) :
    ∀ (l : List Nat) (p : PS) (m : Nat),
      (l.foldl (fun patterns q => PS.insert patterns q (f q)) p) m
        = if m ∈ l then some (f m) else p m := by
  intro l
  induction l with
  | nil => intro p m; simp
  | cons q l ih =>
    intro p m
    rw [List.foldl_cons, ih]
    by_cases hm : m ∈ l
    · simp [hm]
    · by_cases hq : m = q
      · subst hq
        simp [hm, PS.insert]
      · simp [hm, hq, PS.insert]

theorem init_patterns_sp (N : Network) (s m : Nat) :
    init_patterns N s m
      = if m < N.numPis
        then some (if m < s then create_nth_var s m else ttZero s) else none := by
  unfold init_patterns
  rw [foldl_insert_sp (fun q => if q < s then create_nth_var s q else ttZero s)
    (List.range N.numPis) PS.empty m]
  simp [List.mem_range, PS.empty]

/-! ### Claim theorems: planner and entry-point policy -/

/-- C5: for every network with at most six primary inputs (`n ≤ 6`,
including `n = 0` and `n = 6`) and any node count `v`, the planner yields
`split_var = n` and `rounds = 1`: a single exhaustive simulation round. -/
theorem C5_planner_small (v n : Nat) (h : n ≤ 6) :
    compute_splitting_var v n = n ∧
    compute_rounds n (compute_splitting_var v n) = 1 := by
  have hs := compute_splitting_var_le6 v n h
  exact ⟨hs, by rw [hs]; exact compute_rounds_self n⟩

theorem C5_planner_small_witness :
    (6 : Nat) ≤ 6 ∧
      (compute_splitting_var 5 6 = 6 ∧
        compute_rounds 6 (compute_splitting_var 5 6) = 1) :=
  ⟨by decide, C5_planner_small 5 6 (by decide)⟩

/-- C2 (evaluation at the failing input): for a network with `n = 7`
primary inputs and node count `v = 7` (so the memory-budget condition
`48 * v ≤ 2 ^ 29` holds at every candidate width up to `n`), the planner
yields `split_var = 8 > n = 7`, violating `split_var ≤ n`, and the
subsequent round count `1 << (n - split_var)` is computed with a wrapped
(negative) exponent, yielding `0` instead of a meaningful round count. -/
theorem C2_planner_overshoot :
    compute_splitting_var 7 7 = 8 ∧ ¬ (compute_splitting_var 7 7 ≤ 7) ∧
      compute_rounds 7 (compute_splitting_var 7 7) = 0 := by
  have h : compute_splitting_var 7 7 = 8 :=
    compute_splitting_var_overshoot 7 7 (by norm_num) (by unfold U32; norm_num)
  refine ⟨h, by omega, ?_⟩
  rw [h]
  exact compute_rounds_overshoot 7 (by unfold U32; norm_num)

/-- C3 (counterexample): the entry point checks only the FIRST network's
primary-input count.  With a first network of 1 input and a second network
of 41 inputs, `simulation_cec` does not return the indeterminate value: the
miter construction fails on the input-count mismatch and the result is
`some false`. -/
theorem C3_counterexample :
    netP41.numPis = 41 ∧ (simulation_cec netP1 netP41).1 = some false := by
  constructor
  · rfl
  · rfl

/-- C3 (amended): if the FIRST network's primary-input count exceeds 40
(in particular whenever both do), `simulation_cec` declines execution and
returns the indeterminate value `none`, which is distinct from both
`some true` and `some false`; an invocation whose first network has 41
primary inputs yields `none`, never `some false`. -/
theorem C3_first_cap (N1 N2 : Network) (h : 40 < N1.numPis) :
    (simulation_cec N1 N2).1 = none := by
  unfold simulation_cec
  simp [h]

theorem C3_first_cap_witness :
    40 < netP41.numPis ∧ (simulation_cec netP41 netP41).1 = none :=
  ⟨by decide, C3_first_cap netP41 netP41 (by decide)⟩

/-- C10: for networks within the input cap, when the miter cannot be
constructed (the primary-input or primary-output counts differ),
`simulation_cec` returns `some false` — not the indeterminate value —
and reports the default statistics `split_var = 0`, `rounds = 0`
(no simulation round is run: the checker body is never entered). -/
theorem C10_miter_failure (N1 N2 : Network) (h1 : N1.numPis ≤ 40)
    (h2 : N2.numPis ≤ 40)
    (h : N1.numPis ≠ N2.numPis ∨ N1.pos.length ≠ N2.pos.length) :
    simulation_cec N1 N2 = (some false, ⟨0, 0⟩) := by
  unfold simulation_cec miter
  have hne : ¬ (N1.numPis = N2.numPis ∧ N1.pos.length = N2.pos.length) := by
    tauto
  simp [Nat.not_lt.2 h1, hne]

theorem C10_miter_failure_witness :
    netP1.numPis ≠ netP2.numPis ∧ simulation_cec netP1 netP2 = (some false, ⟨0, 0⟩) :=
  ⟨by decide, C10_miter_failure netP1 netP2 (by decide) (by decide) (Or.inl (by decide))⟩

/-- C6: the initial pattern store maps each primary input at positional
index `i` to the width-`split_var` projection function of variable `i`
when `i < split_var` (bit `k` of its table is bit `i` of `k`) and to the
constant-zero table of the same width when `i ≥ split_var`; every primary
input gets exactly one entry and no other node gets an entry. -/
theorem C6_init_patterns_sp (N : Network) (s : Nat) :
    (∀ i, i < N.numPis →
        init_patterns N s i
          = some (if i < s then create_nth_var s i else ttZero s)) ∧
    (∀ m, N.numPis ≤ m → init_patterns N s m = none) ∧
    (∀ i k, k < 2 ^ s → ttGetBit (create_nth_var s i) k = k.testBit i) ∧
    (∀ k, ttGetBit (ttZero s) k = false) ∧
    (∀ i, (create_nth_var s i).numVars = s) ∧ (ttZero s).numVars = s := by
  refine ⟨?_, ?_, ?_, ?_, ?_, rfl⟩
  · intro i hi
    rw [init_patterns_sp]
    simp [hi]
  · intro m hm
    rw [init_patterns_sp]
    simp [Nat.not_lt.2 hm]
  · intro i k hk
    exact ttGetBit_create_nth_var s i k hk
  · intro k
    exact ttGetBit_ttZero s k
  · intro i
    rfl

theorem C6_init_patterns_sp_witness :
    0 < netP2.numPis ∧
      init_patterns netP2 1 0 = some (if 0 < 1 then create_nth_var 1 0 else ttZero 1) :=
  ⟨by decide, (C6_init_patterns_sp netP2 1).1 0 (by decide)⟩

/-! ### Evaluation-semantics lemmas -/

theorem evalGates_append (gs1 gs2 : List Gate) (acc : List Bool) :
    evalGates (gs1 ++ gs2) acc = evalGates gs2 (evalGates gs1 acc) := by
  induction gs1 generalizing acc with
  | nil => rfl
  | cons g gs ih => simp [evalGates, ih]

theorem evalGates_length (gs : List Gate) (acc : List Bool) :
    (evalGates gs acc).length = acc.length + gs.length := by
  induction gs generalizing acc with
  | nil => simp [evalGates]
  | cons g gs ih =>
    rw [evalGates, ih]
    simp
    omega

theorem evalGates_getD_lt (gs : List Gate) (acc : List Bool) (i : Nat)
    (h : i < acc.length) :
    (evalGates gs acc).getD i false = acc.getD i false := by
  induction gs generalizing acc with
  | nil => rfl
  | cons g gs ih =>
    rw [evalGates, ih _ (by simp; omega)]
    rw [List.getD_eq_getElem?_getD, List.getElem?_append_left h,
      ← List.getD_eq_getElem?_getD]

theorem nodeVals_length (N : Network) (σ : Nat → Bool) :
    (N.nodeVals σ).length = N.size := by
  unfold Network.nodeVals Network.size
  rw [evalGates_length]
  simp

theorem evalNode_pi (N : Network) (σ : Nat → Bool) (i : Nat) (h : i < N.numPis) :
    N.evalNode σ i = σ i := by
  unfold Network.evalNode Network.nodeVals
  rw [evalGates_getD_lt _ _ _ (by simp [h])]
  simp [getD_range_map, h]

theorem evalNode_ge (N : Network) (σ : Nat → Bool) (i : Nat) (h : N.size ≤ i) :
    N.evalNode σ i = false := by
  unfold Network.evalNode
  exact List.getD_eq_default _ _ (by rw [nodeVals_length]; exact h)

theorem evalNode_gate (N : Network) (σ : Nat → Bool) (j : Nat) (g : Gate)
    (hg : N.gates[j]? = some g) :
    N.evalNode σ (N.numPis + j)
      = g.op (g.fanins.map (fun ic =>
          Bool.xor (if ic.1 < N.numPis + j then N.evalNode σ ic.1 else false) ic.2)) := by
  obtain ⟨hj, hgj⟩ := List.getElem?_eq_some_iff.1 hg
  have hpvlen :
      (evalGates (N.gates.take j) ((List.range N.numPis).map σ)).length
        = N.numPis + j := by
    rw [evalGates_length]
    simp [List.length_take, Nat.min_eq_left (Nat.le_of_lt hj)]
  have hsplit : N.nodeVals σ
      = evalGates (N.gates.drop j) (evalGates (N.gates.take j) ((List.range N.numPis).map σ)) := by
    rw [Network.nodeVals, ← evalGates_append, List.take_append_drop]
  have hdrop : N.gates.drop j = g :: N.gates.drop (j + 1) := by
    rw [List.drop_eq_getElem_cons hj, hgj]
  set pv := evalGates (N.gates.take j) ((List.range N.numPis).map σ) with hpv
  have hval : N.evalNode σ (N.numPis + j) = gateEval g pv := by
    unfold Network.evalNode
    rw [hsplit, hdrop, evalGates]
    rw [evalGates_getD_lt _ _ _ (by simp [hpvlen])]
    rw [List.getD_eq_getElem?_getD, ← hpvlen, List.getElem?_concat_length]
    rfl
  rw [hval]
  unfold gateEval
  congr 1
  apply List.map_congr_left
  intro ic _
  congr 1
  by_cases hic : ic.1 < N.numPis + j
  · have : N.evalNode σ ic.1 = pv.getD ic.1 false := by
      unfold Network.evalNode
      rw [hsplit]
      exact evalGates_getD_lt _ _ _ (by rw [hpvlen]; exact hic)
    simp [hic, this]
  · rw [List.getD_eq_default _ _ (by rw [hpvlen]; omega)]
    simp [hic]

theorem evalNode_congr (N : Network) (σ τ : Nat → Bool)
    (h : ∀ i, i < N.numPis → σ i = τ i) (m : Nat) :
    N.evalNode σ m = N.evalNode τ m := by
  have : (List.range N.numPis).map σ = (List.range N.numPis).map τ := by
    apply List.map_congr_left
    intro a ha
    exact h a (List.mem_range.1 ha)
  unfold Network.evalNode Network.nodeVals
  rw [this]

/-! ### Simulator characterization -/

theorem simGates_frame (n w : Nat) (gs : List Gate) :
    ∀ (j : Nat) (p : PS) (m : Nat), m < n ∨ n + j + gs.length ≤ m →
      simGates n w gs j p m = p m := by
  induction gs with
  | nil => intro j p m _; rfl
  | cons g gs ih =>
    intro j p m h
    rw [simGates]
    cases hpj : p (n + j) with
    | some t =>
      exact ih (j + 1) p m (by simp at h ⊢; omega)
    | none =>
      show simGates n w gs (j + 1) (PS.insert p (n + j) (gateTT p w g)) m = p m
      rw [ih (j + 1) _ m (by simp at h ⊢; omega)]
      have hm : ¬ m = n + j := by simp at h; omega
      simp [PS.insert, hm]

theorem simulate_nodes_frame (N : Network) (w : Nat) (p : PS) (m : Nat)
    (h : m < N.numPis ∨ N.size ≤ m) :
    simulate_nodes N w p m = p m := by
  unfold simulate_nodes
  exact simGates_frame N.numPis w N.gates 0 p m (by unfold Network.size at h; omega)

theorem simGates_sp (N : Network) (A : Nat → Nat → Bool) (w : Nat) :
    ∀ (gs : List Gate) (j : Nat) (p : PS),
      N.gates.drop j = gs → j ≤ N.gates.length →
      (∀ i, i < N.numPis → p i = some (tableOf N A w i)) →
      (∀ m, N.numPis ≤ m →
        p m = if m < N.numPis + j then some (tableOf N A w m) else none) →
      ∀ m, simGates N.numPis w gs j p m
        = if m < N.size then some (tableOf N A w m) else none := by
  intro gs
  induction gs with
  | nil =>
    intro j p hdrop hj h1 h2 m
    have hlen : N.gates.length ≤ j := by
      have := congrArg List.length hdrop
      simp at this
      omega
    have hj' : j = N.gates.length := by omega
    subst hj'
    rw [simGates]
    by_cases hm : m < N.numPis
    · have : m < N.size := by unfold Network.size; omega
      simp [this, h1 m hm]
    · rw [h2 m (by omega)]
      unfold Network.size
      rfl
  | cons g gs ih =>
    intro j p hdrop hj h1 h2 m
    have hj' : j < N.gates.length := by
      by_contra hc
      rw [List.drop_eq_nil_of_le (by omega)] at hdrop
      exact List.noConfusion hdrop
    have hg : N.gates[j]? = some g := by
      rw [List.drop_eq_getElem_cons hj'] at hdrop
      injection hdrop with hh ht
      rw [List.getElem?_eq_some_iff]
      exact ⟨hj', hh⟩
    have hdrop' : N.gates.drop (j + 1) = gs := by
      rw [List.drop_eq_getElem_cons hj'] at hdrop
      injection hdrop with hh ht
    have hpj : p (N.numPis + j) = none := by
      rw [h2 (N.numPis + j) (by omega)]
      simp
    rw [simGates, hpj]
    have hgtt : gateTT p w g = tableOf N A w (N.numPis + j) := by
      unfold gateTT tableOf
      congr 1
      apply List.map_congr_left
      intro k hk
      have hk' : k < 2 ^ w := List.mem_range.1 hk
      rw [evalNode_gate N (A k) j g hg]
      congr 1
      apply List.map_congr_left
      intro ic _
      congr 1
      by_cases hic1 : ic.1 < N.numPis
      · rw [psGet, h1 ic.1 hic1]
        simp only [Option.getD_some]
        rw [tableOf, ttGetBit]
        simp [getD_range_map, hk']
        intro _
        omega
      · by_cases hic2 : ic.1 < N.numPis + j
        · rw [psGet, h2 ic.1 (by omega)]
          simp only [hic2, if_true, Option.getD_some]
          rw [tableOf, ttGetBit]
          simp [getD_range_map, hk', hic2]
        · rw [psGet, h2 ic.1 (by omega)]
          simp only [hic2, if_false, Option.getD_none]
          rw [ttGetBit_ttZero]
    rw [hgtt]
    apply ih (j + 1) _ hdrop' (by omega)
    · intro i hi
      have : ¬ i = N.numPis + j := by omega
      simp [PS.insert, this, h1 i hi]
    · intro m2 hm2
      by_cases hmj : m2 = N.numPis + j
      · subst hmj
        rw [if_pos (by omega)]
        simp [PS.insert]
      · have hins : PS.insert p (N.numPis + j) (tableOf N A w (N.numPis + j)) m2 = p m2 := by
          simp [PS.insert, hmj]
        rw [hins, h2 m2 hm2]
        by_cases hlt : m2 < N.numPis + j
        · rw [if_pos hlt, if_pos (by omega)]
        · rw [if_neg hlt, if_neg (by omega)]

theorem simulate_nodes_sp (N : Network) (A : Nat → Nat → Bool) (w : Nat) (p : PS)
    (h1 : ∀ i, i < N.numPis → p i = some (tableOf N A w i))
    (h2 : ∀ m, N.numPis ≤ m → p m = none) :
    ∀ m, simulate_nodes N w p m
      = if m < N.size then some (tableOf N A w m) else none := by
  apply simGates_sp N A w N.gates 0 p rfl (by omega) h1
  intro m hm
  rw [h2 m hm, if_neg (by omega)]

/-! ### Rotator characterization -/

theorem psGet_of_isSome (p : PS) (x w : Nat) (h : (p x).isSome = true) :
    p x = some (psGet p x w) := by
  cases hx : p x with
  | none => rw [hx] at h; simp at h
  | some t => simp [psGet, hx]

theorem eraseGates_fold (n : Nat) : ∀ (L : Nat) (p : PS) (m : Nat),
    (List.range L).foldl (fun q j => PS.erase q (n + j)) p m
      = if n ≤ m ∧ m < n + L then none else p m := by
  intro L
  induction L with
  | zero =>
    intro p m
    simp only [List.range_zero, List.foldl_nil]
    rw [if_neg (by omega)]
  | succ L ih =>
    intro p m
    rw [List.range_succ, List.foldl_append]
    simp only [List.foldl_cons, List.foldl_nil]
    by_cases hm : m = n + L
    · subst hm
      rw [if_pos (by omega)]
      simp [PS.erase]
    · have hstep : PS.erase ((List.range L).foldl (fun q j => PS.erase q (n + j)) p) (n + L) m
          = (List.range L).foldl (fun q j => PS.erase q (n + j)) p m := by
        simp [PS.erase, hm]
      rw [hstep, ih p m]
      by_cases hc : n ≤ m ∧ m < n + L
      · rw [if_pos hc, if_pos (by omega)]
      · rw [if_neg hc, if_neg (by omega)]

theorem eraseGates_sp (N : Network) (p : PS) (m : Nat) :
    eraseGates N p m = if N.numPis ≤ m ∧ m < N.size then none else p m := by
  unfold eraseGates Network.size
  rw [eraseGates_fold]

theorem rotGo_skip (s : Nat) (l l2 : List Nat) (r : Nat) (p : PS)
    (h : ∀ i ∈ l, i < s) : rotGo s (l ++ l2) r p = rotGo s l2 r p := by
  induction l with
  | nil => rfl
  | cons i l ih =>
    have hi : ¬ s ≤ i := by
      have := h i (by simp)
      omega
    rw [List.cons_append, rotGo]
    simp only [hi, if_false]
    exact ih (fun i2 hi2 => h i2 (by simp [hi2]))

theorem rotGo_sp (s : Nat) : ∀ (m : Nat) (a r : Nat) (p : PS),
    (∀ t, t < m → (p (s + a + t)).isSome = true) →
    (∀ t, t < m → rotGo s (List.range' (s + a) m) r p (s + a + t)
        = some (rotStep (r.testBit t) (psGet p (s + a + t) 0))) ∧
    (∀ x, x < s + a ∨ s + a + m ≤ x → rotGo s (List.range' (s + a) m) r p x = p x) := by
  intro m
  induction m with
  | zero =>
    intro a r p _
    exact ⟨fun t ht => absurd ht (by omega), fun x _ => rfl⟩
  | succ m ih =>
    intro a r p hpres
    have hcons : List.range' (s + a) (m + 1) = (s + a) :: List.range' (s + a + 1) m := rfl
    have hsa : s ≤ s + a := by omega
    have hsome : p (s + a) = some (psGet p (s + a) 0) :=
      psGet_of_isSome p (s + a) 0 (by have := hpres 0 (by omega); simpa using this)
    rw [hcons, rotGo]
    simp only [hsa, if_true]
    set t0 := psGet p (s + a) 0 with ht0
    set p2 : PS :=
      (if r % 2 = 1 then (if is_const0 t0 then PS.insert p (s + a) (ttNot t0) else p)
       else (if is_const0 t0 then p else PS.insert p (s + a) (ttNot t0))) with hp2
    have hp2at : p2 (s + a) = some (rotStep (r.testBit 0) t0) := by
      rw [hp2, rotStep, Nat.testBit_zero]
      by_cases hr : r % 2 = 1
      · by_cases hc : is_const0 t0
        · simp [hr, hc, PS.insert]
        · simp [hr, hc, hsome]
      · by_cases hc : is_const0 t0
        · simp [hr, hc, hsome]
        · simp [hr, hc, PS.insert]
    have hp2ne : ∀ x, x ≠ s + a → p2 x = p x := by
      intro x hx
      rw [hp2]
      by_cases hr : r % 2 = 1 <;> by_cases hc : is_const0 t0 <;>
        simp [hr, hc, PS.insert, hx]
    have hpres2 : ∀ t, t < m → (p2 (s + (a + 1) + t)).isSome = true := by
      intro t ht
      rw [hp2ne _ (by omega)]
      have heq : s + (a + 1) + t = s + a + (t + 1) := by omega
      rw [heq]
      exact hpres (t + 1) (by omega)
    obtain ⟨ihmain, ihframe⟩ := ih (a + 1) (r / 2) p2 hpres2
    constructor
    · intro t ht
      cases t with
      | zero =>
        have hlt : s + a + 0 < s + (a + 1) := by omega
        have hfr := ihframe (s + a + 0) (Or.inl hlt)
        show rotGo s (List.range' (s + a + 1) m) (r / 2) p2 (s + a + 0) = _
        have harg : List.range' (s + a + 1) m = List.range' (s + (a + 1)) m := by
          congr 1
        rw [harg, hfr]
        exact hp2at
      | succ t =>
        have ht' : t < m := by omega
        have hmain := ihmain t ht'
        show rotGo s (List.range' (s + a + 1) m) (r / 2) p2 (s + a + (t + 1)) = _
        have harg : List.range' (s + a + 1) m = List.range' (s + (a + 1)) m := by
          congr 1
        have hkey : s + a + (t + 1) = s + (a + 1) + t := by omega
        have hps : psGet p2 (s + (a + 1) + t) 0 = psGet p (s + a + (t + 1)) 0 := by
          unfold psGet
          rw [hp2ne _ (by omega), hkey]
        have hbit : (r / 2).testBit t = r.testBit (t + 1) := (Nat.testBit_succ r t).symm
        rw [harg, hkey, hmain, hps, hbit, ← hkey]
    · intro x hx
      show rotGo s (List.range' (s + a + 1) m) (r / 2) p2 x = p x
      have harg : List.range' (s + a + 1) m = List.range' (s + (a + 1)) m := by
        congr 1
      rw [harg, ihframe x (by omega)]
      exact hp2ne x (by omega)

theorem rotGo_range_sp (s n r : Nat) (p : PS)
    (hpres : ∀ i, s ≤ i → i < n → (p i).isSome = true) :
    (∀ i, s ≤ i → i < n → rotGo s (List.range n) r p i
        = some (rotStep (r.testBit (i - s)) (psGet p i 0))) ∧
    (∀ x, x < s ∨ n ≤ x → rotGo s (List.range n) r p x = p x) := by
  by_cases hs : s ≤ n
  · have hsplit : List.range n = List.range' 0 s ++ List.range' s (n - s) := by
      rw [List.range_eq_range' n]
      have happ := List.range'_append 0 s (n - s) 1
      simp only [Nat.one_mul, Nat.zero_add] at happ
      rw [happ]
      congr 1
      omega
    have hskip : ∀ i ∈ List.range' 0 s, i < s := by
      intro i hi
      obtain ⟨t, ht, hit⟩ := List.mem_range'.1 hi
      omega
    have hpres' : ∀ t, t < n - s → (p (s + 0 + t)).isSome = true := by
      intro t ht
      exact hpres (s + 0 + t) (by omega) (by omega)
    obtain ⟨hmain, hframe⟩ := rotGo_sp s (n - s) 0 r p hpres'
    constructor
    · intro i hsi hin
      rw [hsplit, rotGo_skip s _ _ r p hskip]
      have hmain' := hmain (i - s) (by omega)
      have hik : s + 0 + (i - s) = i := by omega
      rw [hik] at hmain'
      exact hmain'
    · intro x hx
      rw [hsplit, rotGo_skip s _ _ r p hskip]
      exact hframe x (by omega)
  · have hskip : ∀ i ∈ List.range n, i < s := by
      intro i hi
      have := List.mem_range.1 hi
      omega
    have : List.range n = List.range n ++ [] := by simp
    constructor
    · intro i hsi hin
      omega
    · intro x _
      rw [this, rotGo_skip s _ _ r p hskip]
      rfl

theorem update_pattern_sp (N : Network) (round : Nat) (p : PS) (s : Nat)
    (hpres : ∀ i, i < N.numPis → (p i).isSome = true) :
    (∀ i, i < N.numPis → i < s → update_pattern N round p s i = p i) ∧
    (∀ i, s ≤ i → i < N.numPis →
      update_pattern N round p s i
        = some (rotStep (round.testBit (i - s)) (psGet p i 0))) ∧
    (∀ m, N.numPis ≤ m →
      update_pattern N round p s m = if m < N.size then none else p m) := by
  have hep : ∀ i, i < N.numPis → eraseGates N p i = p i := by
    intro i hi
    rw [eraseGates_sp, if_neg (by omega)]
  have hpres' : ∀ i, s ≤ i → i < N.numPis → ((eraseGates N p) i).isSome = true := by
    intro i _ hi
    rw [hep i hi]
    exact hpres i hi
  obtain ⟨hmain, hframe⟩ := rotGo_range_sp s N.numPis round (eraseGates N p) hpres'
  refine ⟨?_, ?_, ?_⟩
  · intro i hi hs
    unfold update_pattern
    rw [hframe i (Or.inl hs)]
    exact hep i hi
  · intro i hsi hi
    unfold update_pattern
    rw [hmain i hsi hi]
    congr 2
    unfold psGet
    rw [hep i hi]
  · intro m hm
    unfold update_pattern
    rw [hframe m (Or.inr hm), eraseGates_sp]
    have hsize : N.numPis ≤ N.size := by unfold Network.size; omega
    by_cases hsz : m < N.size
    · rw [if_pos ⟨hm, hsz⟩, if_pos hsz]
    · rw [if_neg (by omega), if_neg hsz]

/-! ### The store across i rounds -/

theorem storeAtRound_sp (N : Network) (s : Nat) :
    ∀ (r m : Nat), storeAtRound N s r m
      = if m < N.numPis then some (roundPatt s r m) else none := by
  intro r
  induction r with
  | zero =>
    intro m
    show init_patterns N s m = _
    rw [init_patterns_sp]
    by_cases hm : m < N.numPis
    · simp only [hm, if_true]
      congr 1
      unfold roundPatt
      by_cases hs : m < s
      · simp [hs]
      · simp [hs, Nat.zero_testBit, ttZero_eq_ttConst]
    · simp [hm]
  | succ r ih =>
    intro m
    show update_pattern N (r + 1) (simulate_nodes N s (storeAtRound N s r)) s m = _
    have hq : ∀ i, i < N.numPis →
        simulate_nodes N s (storeAtRound N s r) i = storeAtRound N s r i := by
      intro i hi
      exact simulate_nodes_frame N s _ i (Or.inl hi)
    have hpres : ∀ i, i < N.numPis →
        ((simulate_nodes N s (storeAtRound N s r)) i).isSome = true := by
      intro i hi
      rw [hq i hi, ih i]
      simp [hi]
    obtain ⟨hfree, hover, hgate⟩ :=
      update_pattern_sp N (r + 1) (simulate_nodes N s (storeAtRound N s r)) s hpres
    by_cases hm : m < N.numPis
    · by_cases hs : m < s
      · rw [hfree m hm hs, hq m hm, ih m]
        simp only [hm, if_true]
        congr 1
        unfold roundPatt
        simp [hs]
      · rw [hover m (by omega) hm]
        have hpg : psGet (simulate_nodes N s (storeAtRound N s r)) m 0
            = ttConst s (r.testBit (m - s)) := by
          unfold psGet
          rw [hq m hm, ih m]
          simp only [hm, if_true, Option.getD_some]
          unfold roundPatt
          simp [hs]
        rw [hpg, rotStep_ttConst]
        simp only [hm, if_true]
        congr 1
        unfold roundPatt
        simp [hs]
    · rw [hgate m (by omega)]
      by_cases hsz : m < N.size
      · simp [hsz, hm]
      · simp only [hsz, if_false]
        rw [simulate_nodes_frame N s _ m (Or.inr (by omega)), ih m]
        simp [hm]

/-! ### Claim theorems: rotator coverage and store invariants -/

/-- C4: in a run with `split_var = s ≤ n` overflow inputs exist at
positions `s + j < n`; after the rotation leading into round `r` (and
after initialization for `r = 0`), the overflow input at the `j`-th
overflow position holds the constant-one table iff bit `j` of `r` is `1`,
and the constant-zero table otherwise — binary-counter order, least
significant bit at the smallest overflow index.  Consequently, over rounds
`r2 < 2 ^ (n - s)`, each of the `2 ^ (n - s)` value-combinations (encoded
by `k`) is assigned in exactly one round, namely `r2 = k`. -/
theorem C4_rotator_coverage (N : Network) (s r : Nat) (hs : s ≤ N.numPis) :
    (∀ j, s + j < N.numPis →
      storeAtRound N s r (s + j) = some (ttConst s (r.testBit j))) ∧
    (∀ k r2, k < 2 ^ (N.numPis - s) → r2 < 2 ^ (N.numPis - s) →
      ((∀ j, s + j < N.numPis →
          storeAtRound N s r2 (s + j) = some (ttConst s (k.testBit j))) ↔ r2 = k)) := by
  have hover : ∀ r2 j, s + j < N.numPis →
      storeAtRound N s r2 (s + j) = some (ttConst s (r2.testBit j)) := by
    intro r2 j hj
    rw [storeAtRound_sp]
    simp only [hj, if_true]
    congr 1
    unfold roundPatt
    rw [if_neg (by omega)]
    have harith : s + j - s = j := by omega
    rw [harith]
  refine ⟨hover r, ?_⟩
  intro k r2 hk hr2
  constructor
  · intro h
    apply Nat.eq_of_testBit_eq
    intro j
    by_cases hj : j < N.numPis - s
    · have h1 := hover r2 j (by omega)
      have h2 := h j (by omega)
      rw [h1] at h2
      exact ttConst_inj s _ _ (Option.some.inj h2)
    · rw [Nat.testBit_eq_false_of_lt
        (lt_of_lt_of_le hr2 (Nat.pow_le_pow_right (by norm_num) (by omega))),
        Nat.testBit_eq_false_of_lt
        (lt_of_lt_of_le hk (Nat.pow_le_pow_right (by norm_num) (by omega)))]
  · intro h
    subst h
    exact hover r2

theorem C4_rotator_coverage_witness :
    1 ≤ netP3.numPis ∧
      storeAtRound netP3 1 1 (1 + 0) = some (ttConst 1 ((1 : Nat).testBit 0)) :=
  ⟨by decide, (C4_rotator_coverage netP3 1 1 (by decide)).1 0 (by decide)⟩

/-- C9: throughout a run the store holds exactly one entry per primary
input — present after initialization, preserved (never erased, only
overwritten in place) by every simulation pass and rotation; the rotation
leading into round `r + 1` removes every non-primary-input entry (no gate
value survives into the next simulation pass), and leaves the entries of
free primary inputs (index `< split_var`) unchanged. -/
theorem C9_store_invariant (N : Network) (s r : Nat) :
    (∀ i, i < N.numPis →
      ((storeAtRound N s r) i).isSome = true ∧
        simulate_nodes N s (storeAtRound N s r) i = storeAtRound N s r i) ∧
    (∀ m, N.numPis ≤ m → storeAtRound N s (r + 1) m = none) ∧
    (∀ i, i < s → i < N.numPis →
      storeAtRound N s (r + 1) i = storeAtRound N s r i) := by
  refine ⟨?_, ?_, ?_⟩
  · intro i hi
    constructor
    · rw [storeAtRound_sp]
      simp [hi]
    · exact simulate_nodes_frame N s _ i (Or.inl hi)
  · intro m hm
    rw [storeAtRound_sp]
    simp [Nat.not_lt.2 hm]
  · intro i his hi
    rw [storeAtRound_sp, storeAtRound_sp]
    simp only [hi, if_true]
    unfold roundPatt
    rw [if_pos his, if_pos his]

theorem C9_store_invariant_witness :
    netP2.numPis ≤ 5 ∧ storeAtRound netP2 1 (1 + 1) 5 = none :=
  ⟨by decide, (C9_store_invariant netP2 1 1).2.1 5 (by decide)⟩

/-! ### Check characterization -/

theorem ttGetBit_tableOf (N : Network) (A : Nat → Nat → Bool) (w m k : Nat)
    (hk : k < 2 ^ w) : ttGetBit (tableOf N A w m) k = N.evalNode (A k) m := by
  simp [ttGetBit, tableOf, getD_range_map, hk]

theorem tableOf_bits_length (N : Network) (A : Nat → Nat → Bool) (w m : Nat) :
    (tableOf N A w m).bits.length = 2 ^ w := by
  simp [tableOf]

theorem ttNot_bits_length (t : TT) : (ttNot t).bits.length = t.bits.length := by
  simp [ttNot]

theorem ttGetBit_ttNot (t : TT) (k : Nat) (hk : k < t.bits.length) :
    ttGetBit (ttNot t) k = ! ttGetBit t k := by
  unfold ttGetBit ttNot
  rw [List.getD_eq_getElem _ _ (by simpa using hk), List.getD_eq_getElem _ _ hk]
  simp

theorem bxor_eq_false_iff (a b : Bool) : Bool.xor a b = false ↔ a = b := by
  cases a <;> cases b <;> simp

theorem check_po_iff (N : Network) (A : Nat → Nat → Bool) (w : Nat) (p : PS)
    (hp : ∀ m, p m = if m < N.size then some (tableOf N A w m) else none)
    (f : Nat × Bool) :
    ((if f.2 then is_const0 (ttNot (psGet p f.1 w)) else is_const0 (psGet p f.1 w)) = true)
      ↔ (∀ k, k < 2 ^ w → evalSignal N (A k) f = false) := by
  have hsig : ∀ k, evalSignal N (A k) f = false ↔ N.evalNode (A k) f.1 = f.2 := by
    intro k
    unfold evalSignal
    exact bxor_eq_false_iff _ _
  by_cases hdr : f.1 < N.size
  · have hget : psGet p f.1 w = tableOf N A w f.1 := by
      unfold psGet
      rw [hp f.1, if_pos hdr]
      rfl
    rw [hget]
    by_cases hf2 : f.2 = true
    · rw [if_pos hf2, is_const0_iff]
      constructor
      · intro h k hk
        rw [hsig k, hf2]
        have hh := h k (by rw [ttNot_bits_length, tableOf_bits_length]; exact hk)
        rw [ttGetBit_ttNot _ _ (by rw [tableOf_bits_length]; exact hk),
          ttGetBit_tableOf N A w f.1 k hk] at hh
        simpa using hh
      · intro h k hk
        rw [ttNot_bits_length, tableOf_bits_length] at hk
        rw [ttGetBit_ttNot _ _ (by rw [tableOf_bits_length]; exact hk),
          ttGetBit_tableOf N A w f.1 k hk]
        have hh := h k hk
        rw [hsig k, hf2] at hh
        simp [hh]
    · rw [if_neg hf2, is_const0_iff]
      have hf2' : f.2 = false := by simpa using hf2
      constructor
      · intro h k hk
        rw [hsig k, hf2']
        have hh := h k (by rw [tableOf_bits_length]; exact hk)
        rw [ttGetBit_tableOf N A w f.1 k hk] at hh
        exact hh
      · intro h k hk
        rw [tableOf_bits_length] at hk
        rw [ttGetBit_tableOf N A w f.1 k hk]
        have hh := h k hk
        rw [hsig k, hf2'] at hh
        exact hh
  · have hget : psGet p f.1 w = ttZero w := by
      unfold psGet
      rw [hp f.1, if_neg hdr]
      rfl
    have hev : ∀ k, N.evalNode (A k) f.1 = false :=
      fun k => evalNode_ge N (A k) f.1 (by omega)
    rw [hget]
    by_cases hf2 : f.2 = true
    · rw [if_pos hf2, ttZero_eq_ttConst, ttNot_ttConst, is_const0_ttConst]
      constructor
      · intro h
        exact absurd h (by simp)
      · intro h
        have hh := h 0 (Nat.two_pow_pos w)
        rw [hsig 0, hf2, hev 0] at hh
        exact absurd hh (by simp)
    · rw [if_neg hf2, ttZero_eq_ttConst, is_const0_ttConst]
      have hf2' : f.2 = false := by simpa using hf2
      constructor
      · intro _ k _
        rw [hsig k, hf2']
        exact hev k
      · intro _
        simp
  
theorem check_iff (N : Network) (A : Nat → Nat → Bool) (w : Nat) (p : PS)
    (hp : ∀ m, p m = if m < N.size then some (tableOf N A w m) else none) :
    check N p w = true ↔ ∀ f ∈ N.pos, ∀ k, k < 2 ^ w → evalSignal N (A k) f = false := by
  unfold check
  rw [List.all_eq_true]
  constructor
  · intro h f hf
    exact (check_po_iff N A w p hp f).1 (h f hf)
  · intro h f hf
    exact (check_po_iff N A w p hp f).2 (h f hf)

/-! ### From stores to assignments -/

theorem roundPatt_eq_tableOf (N : Network) (s r i : Nat) (hi : i < N.numPis) :
    roundPatt s r i = tableOf N (fun k => roundAssign s k r) s i := by
  unfold roundPatt tableOf
  by_cases hs : i < s
  · rw [if_pos hs]
    unfold create_nth_var
    congr 1
    apply List.map_congr_left
    intro k _
    rw [evalNode_pi N _ i hi]
    simp [roundAssign, hs]
  · rw [if_neg hs]
    unfold ttConst
    congr 1
    rw [← map_range_const]
    apply List.map_congr_left
    intro k _
    rw [evalNode_pi N _ i hi]
    simp [roundAssign, hs]

theorem simulate_store_sp (N : Network) (s r : Nat) :
    ∀ m, simulate_nodes N s (storeAtRound N s r) m
      = if m < N.size then some (tableOf N (fun k => roundAssign s k r) s m) else none := by
  apply simulate_nodes_sp
  · intro i hi
    rw [storeAtRound_sp]
    simp only [hi, if_true]
    rw [roundPatt_eq_tableOf N s r i hi]
  · intro m hm
    rw [storeAtRound_sp]
    simp [Nat.not_lt.2 hm]

theorem checkOK_iff (N : Network) (r : Nat) :
    checkOK N r = true ↔ roundOK N (splitOf N) r := by
  unfold checkOK roundOK
  exact check_iff N (fun k => roundAssign (splitOf N) k r) (splitOf N) _
    (simulate_store_sp N (splitOf N) r)

/-! ### Driver characterization -/

theorem runLoop_iff (N : Network) (rounds : Nat) :
    ∀ (d round : Nat), 1 ≤ round → rounds - round = d →
      (runLoop N (splitOf N)
          (simulate_nodes N (splitOf N) (storeAtRound N (splitOf N) (round - 1)))
          round rounds = true
        ↔ ∀ r, round ≤ r → r < rounds → checkOK N r = true) := by
  intro d
  induction d with
  | zero =>
    intro round h1 hd
    rw [runLoop]
    have hnl : ¬ round < rounds := by omega
    rw [dif_neg hnl]
    constructor
    · intro _ r hr1 hr2
      omega
    · intro _
      rfl
  | succ d ih =>
    intro round h1 hd
    rw [runLoop]
    have hlt : round < rounds := by omega
    rw [dif_pos hlt]
    have hst : update_pattern N round
        (simulate_nodes N (splitOf N) (storeAtRound N (splitOf N) (round - 1)))
        (splitOf N) = storeAtRound N (splitOf N) round := by
      cases round with
      | zero => omega
      | succ r0 => rfl
    show (if check N (simulate_nodes N (splitOf N) (update_pattern N round
          (simulate_nodes N (splitOf N) (storeAtRound N (splitOf N) (round - 1)))
          (splitOf N))) (splitOf N) = false then false
        else runLoop N (splitOf N) (simulate_nodes N (splitOf N) (update_pattern N round
          (simulate_nodes N (splitOf N) (storeAtRound N (splitOf N) (round - 1)))
          (splitOf N))) (round + 1) rounds) = true ↔ _
    rw [hst]
    by_cases hchk :
        check N (simulate_nodes N (splitOf N) (storeAtRound N (splitOf N) round))
          (splitOf N) = false
    · rw [if_pos hchk]
      constructor
      · intro hfalse
        exact absurd hfalse (by simp)
      · intro hall
        have hc := hall round (le_refl round) hlt
        unfold checkOK at hc
        rw [hc] at hchk
        exact absurd hchk (by simp)
    · rw [if_neg hchk]
      have hc : checkOK N round = true := by
        cases hb : check N (simulate_nodes N (splitOf N) (storeAtRound N (splitOf N) round))
            (splitOf N) with
        | false => exact absurd hb hchk
        | true => exact hb
      have ih' := ih (round + 1) (by omega) (by omega)
      simp only [Nat.add_sub_cancel] at ih'
      rw [ih']
      constructor
      · intro h r hr1 hr2
        by_cases hr : r = round
        · subst hr
          exact hc
        · exact h r (by omega) hr2
      · intro h r hr1 hr2
        exact h r (by omega) hr2

theorem run_fst (N : Network) :
    (run N).1 = if checkOK N 0 = false then false
      else runLoop N (splitOf N)
        (simulate_nodes N (splitOf N) (storeAtRound N (splitOf N) 0)) 1 (roundsOf N) := by
  show (if check N (simulate_nodes N (splitOf N) (init_patterns N (splitOf N)))
        (splitOf N) = false
      then ((false : Bool), (⟨splitOf N, roundsOf N⟩ : simulation_cec_stats))
      else (runLoop N (splitOf N)
        (simulate_nodes N (splitOf N) (init_patterns N (splitOf N))) 1 (roundsOf N),
        ⟨splitOf N, roundsOf N⟩)).1 = _
  by_cases h : check N (simulate_nodes N (splitOf N) (init_patterns N (splitOf N)))
      (splitOf N) = false
  · rw [if_pos h, if_pos (show checkOK N 0 = false from h)]
  · rw [if_neg h, if_neg (show ¬ checkOK N 0 = false from h)]
    rfl

theorem run_snd (N : Network) :
    (run N).2 = ⟨splitOf N, roundsOf N⟩ := by
  show (if check N (simulate_nodes N (splitOf N) (init_patterns N (splitOf N)))
        (splitOf N) = false
      then ((false : Bool), (⟨splitOf N, roundsOf N⟩ : simulation_cec_stats))
      else (runLoop N (splitOf N)
        (simulate_nodes N (splitOf N) (init_patterns N (splitOf N))) 1 (roundsOf N),
        ⟨splitOf N, roundsOf N⟩)).2 = _
  by_cases h : check N (simulate_nodes N (splitOf N) (init_patterns N (splitOf N)))
      (splitOf N) = false
  · rw [if_pos h]
  · rw [if_neg h]

theorem run_true_iff (N : Network) :
    (run N).1 = true
      ↔ (roundOK N (splitOf N) 0 ∧
          ∀ r, 1 ≤ r → r < roundsOf N → roundOK N (splitOf N) r) := by
  rw [run_fst]
  by_cases h0 : checkOK N 0 = false
  · rw [if_pos h0]
    constructor
    · intro h
      exact absurd h (by simp)
    · intro hc
      have h1 := (checkOK_iff N 0).2 hc.1
      rw [h1] at h0
      exact absurd h0 (by simp)
  · rw [if_neg h0]
    have h0' : checkOK N 0 = true := by
      cases hb : checkOK N 0 with
      | false => exact absurd hb h0
      | true => rfl
    have hL := runLoop_iff N (roundsOf N) (roundsOf N - 1) 1 (le_refl 1) rfl
    simp only [Nat.sub_self] at hL
    rw [hL]
    constructor
    · intro h
      exact ⟨(checkOK_iff N 0).1 h0', fun r h1 h2 => (checkOK_iff N r).1 (h r h1 h2)⟩
    · intro hc r h1 h2
      exact (checkOK_iff N r).2 (hc.2 r h1 h2)

/-! ### Coverage of all assignments -/

theorem bitsToNat_lt (f : Nat → Bool) : ∀ m, bitsToNat f m < 2 ^ m := by
  intro m
  induction m generalizing f with
  | zero => simp [bitsToNat]
  | succ m ih =>
    have hb := ih (fun j => f (j + 1))
    unfold bitsToNat
    cases hf : f 0 <;> simp [hf] <;> rw [Nat.pow_succ] <;> omega

theorem bitsToNat_testBit (f : Nat → Bool) :
    ∀ m j, j < m → (bitsToNat f m).testBit j = f j := by
  intro m
  induction m generalizing f with
  | zero =>
    intro j hj
    omega
  | succ m ih =>
    intro j hj
    cases j with
    | zero =>
      unfold bitsToNat
      rw [Nat.testBit_zero]
      cases hf : f 0 <;> simp [hf] <;> omega
    | succ j =>
      unfold bitsToNat
      rw [Nat.testBit_succ]
      have hdiv : (2 * bitsToNat (fun i => f (i + 1)) m + (f 0).toNat) / 2
          = bitsToNat (fun i => f (i + 1)) m := by
        cases hf : f 0 <;> simp [hf] <;> omega
      rw [hdiv]
      exact ih (fun i => f (i + 1)) j (by omega)

theorem roundOK_all_iff (N : Network) (s R : Nat)
    (hcov : N.numPis ≤ s ∨ (s ≤ N.numPis ∧ 2 ^ (N.numPis - s) ≤ R)) :
    ((roundOK N s 0 ∧ ∀ r, 1 ≤ r → r < R → roundOK N s r)
      ↔ ∀ (σ : Nat → Bool), ∀ f ∈ N.pos, evalSignal N σ f = false) := by
  constructor
  · rintro ⟨h0, hr⟩ σ f hf
    rcases hcov with hcase | ⟨hsn, hR⟩
    · have hk : bitsToNat σ N.numPis < 2 ^ s :=
        lt_of_lt_of_le (bitsToNat_lt σ N.numPis)
          (Nat.pow_le_pow_right (by norm_num) hcase)
      have hval := h0 f hf (bitsToNat σ N.numPis) hk
      have hcongr : evalSignal N (roundAssign s (bitsToNat σ N.numPis) 0) f
          = evalSignal N σ f := by
        unfold evalSignal
        congr 1
        apply evalNode_congr
        intro i hi
        unfold roundAssign
        rw [if_pos (by omega)]
        exact bitsToNat_testBit σ N.numPis i hi
      rw [hcongr] at hval
      exact hval
    · have hkr : bitsToNat σ s < 2 ^ s := bitsToNat_lt _ _
      have hrR : bitsToNat (fun j => σ (s + j)) (N.numPis - s) < 2 ^ (N.numPis - s) :=
        bitsToNat_lt _ _
      have hcongr : evalSignal N
          (roundAssign s (bitsToNat σ s) (bitsToNat (fun j => σ (s + j)) (N.numPis - s))) f
          = evalSignal N σ f := by
        unfold evalSignal
        congr 1
        apply evalNode_congr
        intro i hi
        unfold roundAssign
        by_cases his : i < s
        · rw [if_pos his]
          exact bitsToNat_testBit σ s i his
        · rw [if_neg his]
          rw [bitsToNat_testBit (fun j => σ (s + j)) (N.numPis - s) (i - s) (by omega)]
          congr 1
          omega
      by_cases hr0 : bitsToNat (fun j => σ (s + j)) (N.numPis - s) = 0
      · have hval := h0 f hf (bitsToNat σ s) hkr
        rw [hr0] at hcongr
        rw [hcongr] at hval
        exact hval
      · have hval := hr (bitsToNat (fun j => σ (s + j)) (N.numPis - s))
          (by omega) (by omega) f hf (bitsToNat σ s) hkr
        rw [hcongr] at hval
        exact hval
  · intro h
    constructor
    · intro f hf k _
      exact h _ f hf
    · intro r _ _ f hf k _
      exact h _ f hf

/-! ### Miter correctness -/

theorem wf_fanins (N : Network) (h : N.wf) (j : Nat) (g : Gate)
    (hg : N.gates[j]? = some g) : ∀ ic ∈ g.fanins, ic.1 < N.numPis + j := by
  obtain ⟨hj, hgj⟩ := List.getElem?_eq_some_iff.1 hg
  have hwf := h.1 j hj
  rw [List.getD_eq_getElem _ _ hj, hgj] at hwf
  exact hwf

theorem miterNetwork_gates_eq (N1 N2 : Network) :
    (miterNetwork N1 N2).gates
      = (N1.gates ++ N2.gates.map (shiftGate N1.numPis N1.gates.length))
        ++ List.zipWith (fun f1 f2 => Gate.mk
          [(f1.1, f1.2), (shiftNode N1.numPis N1.gates.length f2.1, f2.2)] xorOp)
          N1.pos N2.pos := rfl

theorem miterNetwork_gates_left (N1 N2 : Network) (j : Nat) (hj : j < N1.gates.length) :
    (miterNetwork N1 N2).gates[j]? = N1.gates[j]? := by
  rw [miterNetwork_gates_eq,
    List.getElem?_append_left (by simp only [List.length_append, List.length_map]; omega),
    List.getElem?_append_left hj]

theorem miterNetwork_gates_mid (N1 N2 : Network) (j : Nat) (hj : j < N2.gates.length) :
    (miterNetwork N1 N2).gates[(N1.gates.length + j)]?
      = (N2.gates[j]?).map (shiftGate N1.numPis N1.gates.length) := by
  rw [miterNetwork_gates_eq,
    List.getElem?_append_left (by simp only [List.length_append, List.length_map]; omega),
    List.getElem?_append_right (by omega)]
  have harith : N1.gates.length + j - N1.gates.length = j := by omega
  rw [harith, List.getElem?_map]

theorem miterNetwork_gates_xor (N1 N2 : Network) (t : Nat) (p1 p2 : Nat × Bool)
    (hp1 : N1.pos[t]? = some p1) (hp2 : N2.pos[t]? = some p2) :
    (miterNetwork N1 N2).gates[(N1.gates.length + N2.gates.length + t)]?
      = some (Gate.mk
        [(p1.1, p1.2), (shiftNode N1.numPis N1.gates.length p2.1, p2.2)] xorOp) := by
  rw [miterNetwork_gates_eq,
    List.getElem?_append_right (by simp only [List.length_append, List.length_map]; omega)]
  have harith : N1.gates.length + N2.gates.length + t
      - (N1.gates ++ N2.gates.map (shiftGate N1.numPis N1.gates.length)).length = t := by
    simp only [List.length_append, List.length_map]
    omega
  rw [harith, List.getElem?_zipWith, hp1, hp2]

theorem miter_eval_left (N1 N2 : Network) (h1 : N1.wf) (σ : Nat → Bool) :
    ∀ i, i < N1.numPis + N1.gates.length →
      (miterNetwork N1 N2).evalNode σ i = N1.evalNode σ i := by
  intro i
  induction i using Nat.strong_induction_on with
  | _ i ih =>
    intro hi
    by_cases hpi : i < N1.numPis
    · rw [evalNode_pi (miterNetwork N1 N2) σ i hpi, evalNode_pi N1 σ i hpi]
    · obtain ⟨j, rfl⟩ : ∃ j, i = N1.numPis + j := ⟨i - N1.numPis, by omega⟩
      have hj : j < N1.gates.length := by omega
      have hg : N1.gates[j]? = some (N1.gates[j]) :=
        List.getElem?_eq_some_iff.2 ⟨hj, rfl⟩
      have hgm : (miterNetwork N1 N2).gates[j]? = some (N1.gates[j]) := by
        rw [miterNetwork_gates_left N1 N2 j hj]
        exact hg
      show (miterNetwork N1 N2).evalNode σ ((miterNetwork N1 N2).numPis + j)
          = N1.evalNode σ (N1.numPis + j)
      rw [evalNode_gate N1 σ j _ hg, evalNode_gate (miterNetwork N1 N2) σ j _ hgm]
      congr 1
      apply List.map_congr_left
      intro ic hic
      have hlt : ic.1 < N1.numPis + j := wf_fanins N1 h1 j _ hg ic hic
      congr 1
      rw [if_pos (show ic.1 < (miterNetwork N1 N2).numPis + j from hlt), if_pos hlt]
      exact ih ic.1 (by omega) (by omega)

theorem miter_eval_right (N1 N2 : Network) (h2 : N2.wf) (hn : N1.numPis = N2.numPis)
    (σ : Nat → Bool) :
    ∀ i, i < N2.numPis + N2.gates.length →
      (miterNetwork N1 N2).evalNode σ (shiftNode N1.numPis N1.gates.length i)
        = N2.evalNode σ i := by
  intro i
  induction i using Nat.strong_induction_on with
  | _ i ih =>
    intro hi
    by_cases hpi : i < N2.numPis
    · have hsh : shiftNode N1.numPis N1.gates.length i = i := by
        unfold shiftNode
        rw [if_pos (by omega)]
      rw [hsh, evalNode_pi N2 σ i hpi,
        evalNode_pi (miterNetwork N1 N2) σ i (show i < N1.numPis by omega)]
    · obtain ⟨j, rfl⟩ : ∃ j, i = N2.numPis + j := ⟨i - N2.numPis, by omega⟩
      have hj : j < N2.gates.length := by omega
      have hsh : shiftNode N1.numPis N1.gates.length (N2.numPis + j)
          = N1.numPis + (N1.gates.length + j) := by
        unfold shiftNode
        rw [if_neg (by omega)]
        omega
      have hg2 : N2.gates[j]? = some (N2.gates[j]) :=
        List.getElem?_eq_some_iff.2 ⟨hj, rfl⟩
      have hgm : (miterNetwork N1 N2).gates[(N1.gates.length + j)]?
          = some (shiftGate N1.numPis N1.gates.length (N2.gates[j])) := by
        rw [miterNetwork_gates_mid N1 N2 j hj, hg2]
        rfl
      rw [hsh]
      show (miterNetwork N1 N2).evalNode σ ((miterNetwork N1 N2).numPis + (N1.gates.length + j))
          = N2.evalNode σ (N2.numPis + j)
      rw [evalNode_gate N2 σ j _ hg2,
        evalNode_gate (miterNetwork N1 N2) σ (N1.gates.length + j) _ hgm]
      show (N2.gates[j]).op _ = (N2.gates[j]).op _
      congr 1
      show ((N2.gates[j]).fanins.map
          (fun ic => (shiftNode N1.numPis N1.gates.length ic.1, ic.2))).map _ = _
      rw [List.map_map]
      apply List.map_congr_left
      intro ic hic
      have hlt2 : ic.1 < N2.numPis + j := wf_fanins N2 h2 j _ hg2 ic hic
      have hshlt : shiftNode N1.numPis N1.gates.length ic.1
          < N1.numPis + (N1.gates.length + j) := by
        unfold shiftNode
        by_cases hc : ic.1 < N1.numPis
        · rw [if_pos hc]
          omega
        · rw [if_neg hc]
          omega
      show Bool.xor (if shiftNode N1.numPis N1.gates.length ic.1
          < (miterNetwork N1 N2).numPis + (N1.gates.length + j)
        then (miterNetwork N1 N2).evalNode σ (shiftNode N1.numPis N1.gates.length ic.1)
        else false) ic.2 = _
      rw [if_pos (show shiftNode N1.numPis N1.gates.length ic.1
          < (miterNetwork N1 N2).numPis + (N1.gates.length + j) from hshlt)]
      rw [if_pos hlt2]
      congr 1
      exact ih ic.1 (by omega) (by omega)

theorem miterNetwork_numPis (N1 N2 : Network) :
    (miterNetwork N1 N2).numPis = N1.numPis := rfl

theorem miterNetwork_pos_eq (N1 N2 : Network) :
    (miterNetwork N1 N2).pos
      = (List.range N1.pos.length).map
        (fun t => (N1.numPis + N1.gates.length + N2.gates.length + t, false)) := rfl

theorem miter_po_eval (N1 N2 : Network) (h1 : N1.wf) (h2 : N2.wf)
    (hn : N1.numPis = N2.numPis) (σ : Nat → Bool) (t : Nat) (p1 p2 : Nat × Bool)
    (hp1 : N1.pos[t]? = some p1) (hp2 : N2.pos[t]? = some p2) :
    evalSignal (miterNetwork N1 N2) σ
        (N1.numPis + N1.gates.length + N2.gates.length + t, false)
      = Bool.xor (evalSignal N1 σ p1) (evalSignal N2 σ p2) := by
  have hp1m : p1 ∈ N1.pos := List.getElem?_mem hp1
  have hp2m : p2 ∈ N2.pos := List.getElem?_mem hp2
  have hd1 : p1.1 < N1.size := h1.2 p1 hp1m
  have hd2 : p2.1 < N2.size := h2.2 p2 hp2m
  have hd1' : p1.1 < N1.numPis + N1.gates.length := by
    unfold Network.size at hd1
    omega
  have hd2' : p2.1 < N2.numPis + N2.gates.length := by
    unfold Network.size at hd2
    omega
  have hgx := miterNetwork_gates_xor N1 N2 t p1 p2 hp1 hp2
  unfold evalSignal
  rw [Bool.xor_false]
  have hnode : N1.numPis + N1.gates.length + N2.gates.length + t
      = (miterNetwork N1 N2).numPis + (N1.gates.length + N2.gates.length + t) := by
    rw [miterNetwork_numPis]
    omega
  rw [hnode, evalNode_gate (miterNetwork N1 N2) σ _ _ hgx]
  simp only [List.map_cons, List.map_nil]
  unfold xorOp
  simp only [List.getD_cons_zero, List.getD_cons_succ]
  have hc1 : p1.1 < (miterNetwork N1 N2).numPis + (N1.gates.length + N2.gates.length + t) := by
    rw [miterNetwork_numPis]
    omega
  have hshlt : shiftNode N1.numPis N1.gates.length p2.1
      < (miterNetwork N1 N2).numPis + (N1.gates.length + N2.gates.length + t) := by
    rw [miterNetwork_numPis]
    unfold shiftNode
    by_cases hc : p2.1 < N1.numPis
    · rw [if_pos hc]
      omega
    · rw [if_neg hc]
      omega
  rw [if_pos hc1, if_pos hshlt]
  rw [miter_eval_left N1 N2 h1 σ p1.1 hd1', miter_eval_right N1 N2 h2 hn σ p2.1 hd2']

theorem poVals_getElem (N : Network) (σ : Nat → Bool) (t : Nat) :
    (N.poVals σ)[t]? = (N.pos[t]?).map (evalSignal N σ) := by
  unfold Network.poVals
  rw [List.getElem?_map]

theorem miter_outputs_iff (N1 N2 : Network) (h1 : N1.wf) (h2 : N2.wf)
    (hn : N1.numPis = N2.numPis) (hpo : N1.pos.length = N2.pos.length) :
    (∀ (σ : Nat → Bool), ∀ f ∈ (miterNetwork N1 N2).pos,
        evalSignal (miterNetwork N1 N2) σ f = false)
      ↔ cecEquiv N1 N2 := by
  constructor
  · intro h σ
    apply List.ext_getElem?
    intro t
    rw [poVals_getElem, poVals_getElem]
    by_cases ht : t < N1.pos.length
    · have hp1 : N1.pos[t]? = some (N1.pos[t]) := List.getElem?_eq_some_iff.2 ⟨ht, rfl⟩
      have ht2 : t < N2.pos.length := by omega
      have hp2 : N2.pos[t]? = some (N2.pos[t]) := List.getElem?_eq_some_iff.2 ⟨ht2, rfl⟩
      rw [hp1, hp2, Option.map_some', Option.map_some']
      have hf : (N1.numPis + N1.gates.length + N2.gates.length + t, false)
          ∈ (miterNetwork N1 N2).pos := by
        rw [miterNetwork_pos_eq]
        exact List.mem_map.2 ⟨t, List.mem_range.2 ht, rfl⟩
      have hx := h σ _ hf
      rw [miter_po_eval N1 N2 h1 h2 hn σ t _ _ hp1 hp2, bxor_eq_false_iff] at hx
      rw [hx]
    · rw [List.getElem?_eq_none (by omega), List.getElem?_eq_none (by omega)]
      rfl
  · intro h σ f hf
    rw [miterNetwork_pos_eq] at hf
    obtain ⟨t, htm, rfl⟩ := List.mem_map.1 hf
    have ht : t < N1.pos.length := List.mem_range.1 htm
    have ht2 : t < N2.pos.length := by omega
    have hp1 : N1.pos[t]? = some (N1.pos[t]) := List.getElem?_eq_some_iff.2 ⟨ht, rfl⟩
    have hp2 : N2.pos[t]? = some (N2.pos[t]) := List.getElem?_eq_some_iff.2 ⟨ht2, rfl⟩
    rw [miter_po_eval N1 N2 h1 h2 hn σ t _ _ hp1 hp2, bxor_eq_false_iff]
    have hcg := congrArg (fun l => l[t]?) (h σ)
    simp only at hcg
    rw [poVals_getElem, poVals_getElem, hp1, hp2, Option.map_some', Option.map_some'] at hcg
    exact Option.some.inj hcg

/-! ### The run is a complete and sound equivalence check (within coverage) -/

theorem run_correct (N : Network)
    (hcov : N.numPis ≤ splitOf N
      ∨ (splitOf N ≤ N.numPis ∧ 2 ^ (N.numPis - splitOf N) ≤ roundsOf N)) :
    ((run N).1 = true ↔ ∀ (σ : Nat → Bool), ∀ f ∈ N.pos, evalSignal N σ f = false) := by
  rw [run_true_iff]
  exact roundOK_all_iff N (splitOf N) (roundsOf N) hcov

theorem splitOf_covers (N : Network) (hcap : N.numPis ≤ 40)
    (hsafe : N.numPis ≤ 38 ∨ (48 * N.size) % U32 ≤ 2 ^ 29) :
    N.numPis ≤ splitOf N
      ∨ (splitOf N ≤ N.numPis ∧ 2 ^ (N.numPis - splitOf N) ≤ roundsOf N) := by
  unfold roundsOf splitOf
  by_cases h6 : N.numPis ≤ 6
  · rw [compute_splitting_var_le6 N.size N.numPis h6]
    exact Or.inl (le_refl _)
  · by_cases hc : (48 * N.size) % U32 ≤ 2 ^ 29
    · rw [compute_splitting_var_overshoot N.size N.numPis (by omega) hc]
      exact Or.inl (by omega)
    · have h38 : N.numPis ≤ 38 := by
        rcases hsafe with h38 | hbad
        · exact h38
        · exact absurd hbad hc
      rw [compute_splitting_var_budget N.size N.numPis (by omega) hc]
      refine Or.inr ⟨by omega, ?_⟩
      rw [compute_rounds_sub N.numPis 7 (by omega)
        (lt_of_le_of_lt hcap (by unfold U32; norm_num))]
      rw [shl32_eq_pow _ (by omega)]

/-- C1 (amended): for well-formed networks with equal primary-input and
primary-output counts and at most 40 primary inputs, provided additionally
that either `n ≤ 38` or the planner's memory estimate `48 * v` (mod
`2 ^ 32`, `v` the miter's node count) stays within the `2 ^ 29` budget,
`simulation_cec` returns `some true` exactly when the two networks compute
the same boolean function on every input assignment and `some false`
exactly when they differ on at least one assignment.  (Without the
additional proviso the round count `1 << (n - 7)` overflows `uint32` for
`n ∈ {39, 40}` and the round loop under-covers the assignment space; see
the counterexample.) -/
theorem C1_simulation_cec (N1 N2 : Network) (h1 : N1.wf) (h2 : N2.wf)
    (hpi : N1.numPis = N2.numPis) (hpo : N1.pos.length = N2.pos.length)
    (hcap : N1.numPis ≤ 40)
    (hsafe : N1.numPis ≤ 38 ∨ (48 * (miterNetwork N1 N2).size) % U32 ≤ 2 ^ 29) :
    ((simulation_cec N1 N2).1 = some true ↔ cecEquiv N1 N2) ∧
    ((simulation_cec N1 N2).1 = some false ↔ ¬ cecEquiv N1 N2) := by
  have hm : miter N1 N2 = some (miterNetwork N1 N2) := by
    unfold miter
    rw [if_pos ⟨hpi, hpo⟩]
  have hfst : (simulation_cec N1 N2).1 = some (run (miterNetwork N1 N2)).1 := by
    unfold simulation_cec
    rw [if_neg (by omega), hm]
  have hmp : (miterNetwork N1 N2).numPis = N1.numPis := rfl
  have hcov := splitOf_covers (miterNetwork N1 N2)
    (by rw [hmp]; exact hcap)
    (by rw [hmp]; exact hsafe)
  have hiff := run_correct (miterNetwork N1 N2) hcov
  have houts := miter_outputs_iff N1 N2 h1 h2 hpi hpo
  constructor
  · rw [hfst]
    constructor
    · intro h
      exact houts.1 (hiff.1 (Option.some.inj h))
    · intro h
      rw [hiff.2 (houts.2 h)]
  · rw [hfst]
    constructor
    · intro h hequiv
      have hb := Option.some.inj h
      rw [hiff.2 (houts.2 hequiv)] at hb
      exact absurd hb (by simp)
    · intro h
      have hb : (run (miterNetwork N1 N2)).1 = false := by
        cases hx : (run (miterNetwork N1 N2)).1 with
        | true => exact absurd (houts.1 (hiff.1 hx)) h
        | false => rfl
      rw [hb]

theorem C1_simulation_cec_witness :
    netId.wf ∧ netId.numPis ≤ 40 ∧
      ((simulation_cec netId netId).1 = some true ↔ cecEquiv netId netId) :=
  ⟨by decide, by decide,
    (C1_simulation_cec netId netId (by decide) (by decide) rfl rfl (by decide)
      (Or.inl (by decide))).1⟩

/-! ### The planner-overflow counterexample for C1 -/

theorem network_size_eq (N : Network) : N.size = N.numPis + N.gates.length := rfl

theorem bigN1_gates_length : bigN1.gates.length = 16777216 := by
  show (List.replicate 16777216 dummyGate).length = 16777216
  rw [List.length_replicate]

theorem bigN1_size : bigN1.size = 16777255 := by
  rw [network_size_eq, bigN1_gates_length, show bigN1.numPis = 39 from rfl]

theorem bigN1_wf : bigN1.wf := by
  constructor
  · intro j hj ic hic
    have hgd : bigN1.gates.getD j dummyGate = dummyGate := by
      show (List.replicate 16777216 dummyGate).getD j dummyGate = dummyGate
      rw [List.getD_eq_getElem _ _ (by
        rw [List.length_replicate]
        rw [bigN1_gates_length] at hj
        exact hj)]
      exact List.getElem_replicate dummyGate _
    rw [hgd] at hic
    simp [dummyGate] at hic
  · intro f hf
    have hf2 : f = (7, false) := List.mem_singleton.1 hf
    rw [hf2, bigN1_size]
    norm_num

theorem bigN2_wf : bigN2.wf := by
  decide

theorem bigMiter_gates_length :
    (miterNetwork bigN1 bigN2).gates.length = 16777217 := by
  rw [miterNetwork_gates_eq, List.length_append, List.length_append,
    List.length_map, List.length_zipWith, bigN1_gates_length,
    show bigN2.gates.length = 0 from rfl,
    show bigN1.pos.length = 1 from rfl, show bigN2.pos.length = 1 from rfl]
  norm_num

theorem bigMiter_size : (miterNetwork bigN1 bigN2).size = 16777256 := by
  rw [network_size_eq, bigMiter_gates_length,
    show (miterNetwork bigN1 bigN2).numPis = 39 from rfl]

theorem bigMiter_splitOf : splitOf (miterNetwork bigN1 bigN2) = 7 := by
  unfold splitOf
  rw [show (miterNetwork bigN1 bigN2).numPis = 39 from rfl, bigMiter_size]
  exact compute_splitting_var_budget 16777256 39 (by norm_num)
    (by unfold U32; norm_num)

theorem bigMiter_roundsOf : roundsOf (miterNetwork bigN1 bigN2) = 0 := by
  unfold roundsOf
  rw [bigMiter_splitOf, show (miterNetwork bigN1 bigN2).numPis = 39 from rfl]
  unfold compute_rounds sub32 shl32 U32
  norm_num

theorem bigMiter_checkOK : checkOK (miterNetwork bigN1 bigN2) 0 = true := by
  rw [checkOK_iff, bigMiter_splitOf]
  intro f hf k _
  rw [miterNetwork_pos_eq] at hf
  obtain ⟨t, htm, rfl⟩ := List.mem_map.1 hf
  have ht : t = 0 := by
    have hr := List.mem_range.1 htm
    rw [show bigN1.pos.length = 1 from rfl] at hr
    omega
  subst ht
  rw [miter_po_eval bigN1 bigN2 bigN1_wf bigN2_wf rfl _ 0 (7, false) (8, false) rfl rfl]
  unfold evalSignal
  rw [Bool.xor_false, Bool.xor_false]
  rw [evalNode_pi bigN1 _ 7 (show (7 : Nat) < 39 from by norm_num),
    evalNode_pi bigN2 _ 8 (show (8 : Nat) < 39 from by norm_num)]
  unfold roundAssign
  rw [if_neg (by omega), if_neg (by omega), Nat.zero_testBit, Nat.zero_testBit]
  rfl

theorem bigMiter_run : (run (miterNetwork bigN1 bigN2)).1 = true := by
  rw [run_fst, if_neg (by rw [bigMiter_checkOK]; simp), bigMiter_roundsOf]
  rw [runLoop]
  rw [dif_neg (by omega)]

/-- C1 (counterexample): with 39 primary inputs and a large first network
(`2 ^ 24` gates, node count above the memory budget), the planner picks
`split_var = 7` but the round count `1 << (39 - 7)` overflows `uint32` to
`0`, so only round 0 (all overflow inputs at zero) is ever checked:
`simulation_cec` returns `some true` for two networks that differ at any
assignment with primary inputs 7 and 8 unequal — refuting the claim that
it returns `some false` whenever the networks differ. -/
theorem C1_counterexample :
    (simulation_cec bigN1 bigN2).1 = some true ∧ ¬ cecEquiv bigN1 bigN2 := by
  constructor
  · have hm : miter bigN1 bigN2 = some (miterNetwork bigN1 bigN2) := by
      unfold miter
      rw [if_pos ⟨rfl, rfl⟩]
    have hfst : (simulation_cec bigN1 bigN2).1
        = some (run (miterNetwork bigN1 bigN2)).1 := by
      unfold simulation_cec
      rw [if_neg (show ¬ (40 : Nat) < bigN1.numPis from
        show ¬ (40 : Nat) < 39 from by norm_num), hm]
    rw [hfst, bigMiter_run]
  · intro h
    have hx := congrArg (fun l => l[0]?) (h (fun i => decide (i = 7)))
    simp only at hx
    rw [poVals_getElem, poVals_getElem,
      show bigN1.pos[0]? = some (7, false) from rfl,
      show bigN2.pos[0]? = some (8, false) from rfl,
      Option.map_some', Option.map_some'] at hx
    have hx2 := Option.some.inj hx
    unfold evalSignal at hx2
    rw [Bool.xor_false, Bool.xor_false,
      evalNode_pi bigN1 _ 7 (show (7 : Nat) < 39 from by norm_num),
      evalNode_pi bigN2 _ 8 (show (8 : Nat) < 39 from by norm_num)] at hx2
    simp at hx2

/-! ### C7: the equivalence check, bit by bit -/

/-- C7: for a pattern store populated with an entry for each primary-output
driver, `check` returns `true` iff for every primary output signal the
table of its driving node — complemented first when the signal is marked
inverted — is identically the constant-zero table (at bit level: every bit
of the raw driver table equals the signal's inversion flag); and it
returns `false` iff at least one output's (possibly complemented) table
has a nonzero bit (a raw bit differing from the flag). -/
theorem C7_check_iff (N : Network) (p : PS) (w : Nat)
    (hpo : ∀ f ∈ N.pos, (p f.1).isSome = true) :
    (check N p w = true ↔ ∀ f ∈ N.pos, ∀ k, k < (psGet p f.1 w).bits.length →
        ttGetBit (psGet p f.1 w) k = f.2) ∧
    (check N p w = false ↔ ∃ f ∈ N.pos, ∃ k, k < (psGet p f.1 w).bits.length ∧
        ¬ ttGetBit (psGet p f.1 w) k = f.2) := by
  have hper : ∀ f : Nat × Bool,
      ((if f.2 then is_const0 (ttNot (psGet p f.1 w))
        else is_const0 (psGet p f.1 w)) = true)
        ↔ (∀ k, k < (psGet p f.1 w).bits.length → ttGetBit (psGet p f.1 w) k = f.2) := by
    intro f
    by_cases hf2 : f.2 = true
    · rw [if_pos hf2, is_const0_iff]
      constructor
      · intro h k hk
        have hh := h k (by rw [ttNot_bits_length]; exact hk)
        rw [ttGetBit_ttNot _ _ hk] at hh
        rw [hf2]
        simpa using hh
      · intro h k hk
        rw [ttNot_bits_length] at hk
        rw [ttGetBit_ttNot _ _ hk, h k hk, hf2]
        rfl
    · rw [if_neg hf2, is_const0_iff]
      have hf2b : f.2 = false := by simpa using hf2
      rw [hf2b]
  have hmain : check N p w = true
      ↔ ∀ f ∈ N.pos, ∀ k, k < (psGet p f.1 w).bits.length →
          ttGetBit (psGet p f.1 w) k = f.2 := by
    unfold check
    rw [List.all_eq_true]
    constructor
    · intro h f hf
      exact (hper f).1 (h f hf)
    · intro h f hf
      exact (hper f).2 (h f hf)
  refine ⟨hmain, ?_, ?_⟩
  · intro h
    have hnt : ¬ (check N p w = true) := by
      rw [h]
      simp
    rw [hmain] at hnt
    push_neg at hnt
    obtain ⟨f, hf, k, hk, hne⟩ := hnt
    exact ⟨f, hf, k, hk, hne⟩
  · intro hex
    obtain ⟨f, hf, k, hk, hne⟩ := hex
    cases hb : check N p w with
    | false => rfl
    | true => exact absurd (hmain.1 hb f hf k hk) hne

theorem C7_check_iff_witness :
    (∀ f ∈ netId.pos, ((init_patterns netId 1) f.1).isSome = true) ∧
      (check netId (init_patterns netId 1) 1 = true
        ↔ ∀ f ∈ netId.pos, ∀ k, k < (psGet (init_patterns netId 1) f.1 1).bits.length →
            ttGetBit (psGet (init_patterns netId 1) f.1 1) k = f.2) :=
  ⟨by decide, (C7_check_iff netId (init_patterns netId 1) 1 (by decide)).1⟩

/-! ### C8: temporal behavior of the driver -/

theorem runLoopTrace_snd (N : Network) (s rounds : Nat) :
    ∀ (d round : Nat) (p : PS), rounds - round = d →
      (runLoopTrace N s p round rounds).2 = runLoop N s p round rounds := by
  intro d
  induction d with
  | zero =>
    intro round p hd
    rw [runLoopTrace, runLoop]
    have hn : ¬ round < rounds := by omega
    rw [dif_neg hn, dif_neg hn]
  | succ d ih =>
    intro round p hd
    rw [runLoopTrace, runLoop]
    have hlt : round < rounds := by omega
    rw [dif_pos hlt, dif_pos hlt]
    by_cases hchk : check N (simulate_nodes N s (update_pattern N round p s)) s = false
    · rw [if_pos hchk, if_pos hchk]
    · rw [if_neg hchk, if_neg hchk]
      exact ih (round + 1) _ (by omega)

theorem runTrace_snd (N : Network) : (runTrace N).2 = (run N).1 := by
  rw [run_fst]
  show (if check N (simulate_nodes N (splitOf N) (init_patterns N (splitOf N)))
        (splitOf N) = false
      then (([Event.sim 0, Event.chk 0] : List Event), false)
      else (Event.sim 0 :: Event.chk 0 ::
        (runLoopTrace N (splitOf N)
          (simulate_nodes N (splitOf N) (init_patterns N (splitOf N))) 1 (roundsOf N)).1,
        (runLoopTrace N (splitOf N)
          (simulate_nodes N (splitOf N) (init_patterns N (splitOf N))) 1 (roundsOf N)).2)).2
      = _
  by_cases h : check N (simulate_nodes N (splitOf N) (init_patterns N (splitOf N)))
      (splitOf N) = false
  · rw [if_pos h, if_pos (show checkOK N 0 = false from h)]
  · rw [if_neg h, if_neg (show ¬ checkOK N 0 = false from h)]
    exact runLoopTrace_snd N (splitOf N) (roundsOf N) (roundsOf N - 1) 1 _ rfl

theorem runLoopTrace_rot (N : Network) (s rounds : Nat) :
    ∀ (d round : Nat) (p : PS), rounds - round = d →
      ∀ r, Event.rot r ∈ (runLoopTrace N s p round rounds).1 →
        round ≤ r ∧ r < rounds := by
  intro d
  induction d with
  | zero =>
    intro round p hd r hmem
    rw [runLoopTrace] at hmem
    have hn : ¬ round < rounds := by omega
    rw [dif_neg hn] at hmem
    simp at hmem
  | succ d ih =>
    intro round p hd r hmem
    rw [runLoopTrace] at hmem
    have hlt : round < rounds := by omega
    rw [dif_pos hlt] at hmem
    by_cases hchk : check N (simulate_nodes N s (update_pattern N round p s)) s = false
    · rw [if_pos hchk] at hmem
      simp only [List.mem_cons, List.not_mem_nil, or_false] at hmem
      rcases hmem with h | h | h
      · have : r = round := by
          injection h
        omega
      · exact absurd h (by simp)
      · exact absurd h (by simp)
    · rw [if_neg hchk] at hmem
      simp only [List.mem_cons] at hmem
      rcases hmem with h | h | h | h
      · have : r = round := by
          injection h
        omega
      · exact absurd h (by simp)
      · exact absurd h (by simp)
      · have := ih (round + 1) _ (by omega) r h
        omega

theorem runTrace_rot (N : Network) :
    ∀ r, Event.rot r ∈ (runTrace N).1 → 1 ≤ r ∧ r < roundsOf N := by
  intro r hmem
  have hshape : (runTrace N).1
      = if check N (simulate_nodes N (splitOf N) (init_patterns N (splitOf N)))
          (splitOf N) = false
        then [Event.sim 0, Event.chk 0]
        else Event.sim 0 :: Event.chk 0 ::
          (runLoopTrace N (splitOf N)
            (simulate_nodes N (splitOf N) (init_patterns N (splitOf N))) 1 (roundsOf N)).1 := by
    show (if check N (simulate_nodes N (splitOf N) (init_patterns N (splitOf N)))
          (splitOf N) = false
        then (([Event.sim 0, Event.chk 0] : List Event), false)
        else (Event.sim 0 :: Event.chk 0 ::
          (runLoopTrace N (splitOf N)
            (simulate_nodes N (splitOf N) (init_patterns N (splitOf N))) 1 (roundsOf N)).1,
          (runLoopTrace N (splitOf N)
            (simulate_nodes N (splitOf N) (init_patterns N (splitOf N))) 1 (roundsOf N)).2)).1
        = _
    by_cases h : check N (simulate_nodes N (splitOf N) (init_patterns N (splitOf N)))
        (splitOf N) = false
    · rw [if_pos h, if_pos h]
    · rw [if_neg h, if_neg h]
  rw [hshape] at hmem
  by_cases h : check N (simulate_nodes N (splitOf N) (init_patterns N (splitOf N)))
      (splitOf N) = false
  · rw [if_pos h] at hmem
    simp at hmem
  · rw [if_neg h] at hmem
    simp only [List.mem_cons] at hmem
    rcases hmem with hh | hh | hh
    · exact absurd hh (by simp)
    · exact absurd hh (by simp)
    · have := runLoopTrace_rot N (splitOf N) (roundsOf N) (roundsOf N - 1) 1 _ rfl r hh
      omega

theorem runLoopTrace_fail (N : Network) (rounds : Nat) (hrof : rounds = roundsOf N) :
    ∀ (d round : Nat), 1 ≤ round → rounds - round = d →
      ∀ r, round ≤ r → r < rounds →
      checkOK N r = false → (∀ q, round ≤ q → q < r → checkOK N q = true) →
      runLoopTrace N (splitOf N)
          (simulate_nodes N (splitOf N) (storeAtRound N (splitOf N) (round - 1)))
          round rounds
        = (((List.range' round (r + 1 - round)).map
            (fun i => [Event.rot i, Event.sim i, Event.chk i])).flatten, false) := by
  intro d
  induction d with
  | zero =>
    intro round h1 hd r hr1 hr2 _ _
    omega
  | succ d ih =>
    intro round h1 hd r hr1 hr2 hfail hprev
    rw [runLoopTrace]
    have hlt : round < rounds := by omega
    rw [dif_pos hlt]
    have hst : update_pattern N round
        (simulate_nodes N (splitOf N) (storeAtRound N (splitOf N) (round - 1)))
        (splitOf N) = storeAtRound N (splitOf N) round := by
      cases round with
      | zero => omega
      | succ r0 => rfl
    show (if check N (simulate_nodes N (splitOf N) (update_pattern N round
          (simulate_nodes N (splitOf N) (storeAtRound N (splitOf N) (round - 1)))
          (splitOf N))) (splitOf N) = false
        then ([Event.rot round, Event.sim round, Event.chk round], false)
        else (Event.rot round :: Event.sim round :: Event.chk round ::
          (runLoopTrace N (splitOf N) (simulate_nodes N (splitOf N) (update_pattern N round
            (simulate_nodes N (splitOf N) (storeAtRound N (splitOf N) (round - 1)))
            (splitOf N))) (round + 1) rounds).1,
          (runLoopTrace N (splitOf N) (simulate_nodes N (splitOf N) (update_pattern N round
            (simulate_nodes N (splitOf N) (storeAtRound N (splitOf N) (round - 1)))
            (splitOf N))) (round + 1) rounds).2)) = _
    rw [hst]
    by_cases hr : r = round
    · subst hr
      have hchk : check N (simulate_nodes N (splitOf N) (storeAtRound N (splitOf N) r))
          (splitOf N) = false := hfail
      rw [if_pos hchk]
      rw [show r + 1 - r = 1 from by omega]
      rfl
    · have hcr : checkOK N round = true := hprev round (le_refl round) (by omega)
      have hchkne : ¬ check N (simulate_nodes N (splitOf N) (storeAtRound N (splitOf N) round))
          (splitOf N) = false := by
        rw [show check N (simulate_nodes N (splitOf N) (storeAtRound N (splitOf N) round))
            (splitOf N) = checkOK N round from rfl, hcr]
        simp
      rw [if_neg hchkne]
      have hih := ih (round + 1) (by omega) (by omega) r (by omega) hr2 hfail
        (fun q hq1 hq2 => hprev q (by omega) hq2)
      have hstep : simulate_nodes N (splitOf N) (storeAtRound N (splitOf N) round)
          = simulate_nodes N (splitOf N) (storeAtRound N (splitOf N) ((round + 1) - 1)) := rfl
      rw [hstep, hih]
      rw [show r + 1 - round = (r - round) + 1 from by omega,
        show List.range' round ((r - round) + 1)
          = round :: List.range' (round + 1) (r - round) from rfl,
        List.map_cons, List.flatten_cons]
      rw [show r + 1 - (round + 1) = r - round from by omega]
      rfl

theorem runTrace_fail (N : Network) (r : Nat) (hr : r = 0 ∨ r < roundsOf N)
    (hfail : failFirst N r) : runTrace N = (expectedTrace r, false) := by
  obtain ⟨hf, hprev⟩ := hfail
  have hshape : runTrace N
      = if check N (simulate_nodes N (splitOf N) (init_patterns N (splitOf N)))
          (splitOf N) = false
        then (([Event.sim 0, Event.chk 0] : List Event), false)
        else (Event.sim 0 :: Event.chk 0 ::
          (runLoopTrace N (splitOf N)
            (simulate_nodes N (splitOf N) (init_patterns N (splitOf N))) 1 (roundsOf N)).1,
          (runLoopTrace N (splitOf N)
            (simulate_nodes N (splitOf N) (init_patterns N (splitOf N))) 1 (roundsOf N)).2) := rfl
  by_cases hr0 : r = 0
  · subst hr0
    rw [hshape, if_pos (show check N (simulate_nodes N (splitOf N)
        (init_patterns N (splitOf N))) (splitOf N) = false from hf)]
    rfl
  · have h0 : checkOK N 0 = true := hprev 0 (by omega)
    rw [hshape, if_neg (show ¬ check N (simulate_nodes N (splitOf N)
        (init_patterns N (splitOf N))) (splitOf N) = false from by
      rw [show check N (simulate_nodes N (splitOf N) (init_patterns N (splitOf N)))
          (splitOf N) = checkOK N 0 from rfl, h0]
      simp)]
    have hL := runLoopTrace_fail N (roundsOf N) rfl (roundsOf N - 1) 1 (le_refl 1)
      rfl r (by omega) (by omega) hf (fun q hq1 hq2 => hprev q hq2)
    rw [show simulate_nodes N (splitOf N) (init_patterns N (splitOf N))
        = simulate_nodes N (splitOf N) (storeAtRound N (splitOf N) (1 - 1)) from rfl, hL]
    unfold expectedTrace
    rw [show r + 1 - 1 = r from by omega]

theorem run_checks_iff (N : Network) :
    (run N).1 = true
      ↔ (checkOK N 0 = true ∧ ∀ r, 1 ≤ r → r < roundsOf N → checkOK N r = true) := by
  rw [run_fst]
  by_cases h0 : checkOK N 0 = false
  · rw [if_pos h0]
    constructor
    · intro h
      exact absurd h (by simp)
    · intro hc
      rw [hc.1] at h0
      exact absurd h0 (by simp)
  · rw [if_neg h0]
    have h0t : checkOK N 0 = true := by
      cases hb : checkOK N 0 with
      | false => exact absurd hb h0
      | true => rfl
    have hL := runLoop_iff N (roundsOf N) (roundsOf N - 1) 1 (le_refl 1) rfl
    simp only [Nat.sub_self] at hL
    rw [hL]
    constructor
    · intro h
      exact ⟨h0t, h⟩
    · intro hc
      exact hc.2

/-- C8: temporal behavior of the driver, observed through the instrumented
trace.  (1) The instrumented driver computes the same boolean result as
`run`.  (2) The rotator is invoked only before round indices
`1 .. rounds-1`, never before round 0.  (3) If the check of round `r`
fails and all earlier checks passed, the run stops immediately: its trace
is exactly the events of rounds `0 .. r` and its result is `false` — no
rotation, simulation or check of any later round is executed.  (4) The run
returns `true` exactly when the checks of round 0 and of every round
`1 .. rounds-1` all succeed. -/
theorem C8_driver_temporal (N : Network) :
    ((runTrace N).2 = (run N).1) ∧
    (∀ r, Event.rot r ∈ (runTrace N).1 → 1 ≤ r ∧ r < roundsOf N) ∧
    (∀ r, (r = 0 ∨ r < roundsOf N) → failFirst N r →
      runTrace N = (expectedTrace r, false)) ∧
    ((run N).1 = true
      ↔ (checkOK N 0 = true ∧ ∀ r, 1 ≤ r → r < roundsOf N → checkOK N r = true)) :=
  ⟨runTrace_snd N, runTrace_rot N, fun r hr hf => runTrace_fail N r hr hf,
    run_checks_iff N⟩

theorem C8_driver_temporal_witness : ¬ Event.rot 0 ∈ (runTrace netP2).1 :=
  fun h => absurd ((C8_driver_temporal netP2).2.1 0 h).1 (by decide)
